import Mathlib

/-!
A verification development for a command-line argument parsing and dispatch
engine.  The core pipeline (option declaration, tokenizing, option assignment,
command matching, validation and dispatch) is embedded shallowly: JavaScript
runtime values become the inductive `Value`, objects become ordered association
lists, and the fallible validation steps return `Except`.
-/

set_option maxHeartbeats 1000000

namespace Cac

/-- A JavaScript-like runtime value: the dynamic values flowing through the
parser (flag values, defaults, nested option objects, handler results). -/
inductive Value where
  | undef
  | null
  | bool (b : Bool)
  | num (n : Int)
  | str (s : String)
  | arr (xs : List Value)
  | obj (fields : List (String × Value))

instance : Inhabited Value := ⟨Value.undef⟩

/-- Lookup in an ordered association list (a JavaScript object). -/
def lookupA : List (String × Value) → String → Option Value
  | [], _ => none
  | kv :: rest, k => if kv.1 = k then some kv.2 else lookupA rest k

/-- Assignment into an ordered association list: replace in place when the key
exists, append otherwise (JavaScript object assignment semantics). -/
def setAssoc : List (String × Value) → String → Value → List (String × Value)
  | [], k, v => [(k, v)]
  | kv :: rest, k, v =>
    if kv.1 = k then (k, v) :: rest else kv :: setAssoc rest k v

/-- Truthiness of an option-map entry, following JavaScript coercion. -/
def jsTruthy : Option Value → Bool
  | none => false
  | some .undef => false
  | some .null => false
  | some (.bool b) => b
  | some (.num n) => n != 0
  | some (.str s) => s != ""
  | some (.arr _) => true
  | some (.obj _) => true

/-- Split a character list at every occurrence of a delimiter character. -/
def chSplit (delim : Char) : List Char → List (List Char)
  | [] => [[]]
  | c :: rest =>
    if c = delim then [] :: chSplit delim rest
    else
      match chSplit delim rest with
      | [] => [[c]]
      | g :: gs => (c :: g) :: gs

/-- Split a string on a single-character delimiter (kept kernel-reducible by
working on the underlying character list). -/
def strSplitOnC (delim : Char) (s : String) : List String :=
  (chSplit delim s.data).map (fun cs => String.mk cs)

/-- Whether the first character list is a leading run of the second. -/
def chLeads : List Char → List Char → Bool
  | [], _ => true
  | _ :: _, [] => false
  | a :: as, b :: bs => a = b && chLeads as bs

/-- Kernel-reducible startsWith. -/
def strStarts (p s : String) : Bool := chLeads p.data s.data

/-- Kernel-reducible endsWith. -/
def strEnds (p s : String) : Bool := chLeads p.data.reverse s.data.reverse

/-- Kernel-reducible drop of leading characters. -/
def strDrop (s : String) (n : Nat) : String := String.mk (s.data.drop n)

/-- Kernel-reducible drop of trailing characters. -/
def strDropRight (s : String) (n : Nat) : String :=
  String.mk ((s.data.reverse.drop n).reverse)

/-- Kernel-reducible trim of surrounding spaces. -/
def strTrim (s : String) : String :=
  String.mk (((s.data.dropWhile (fun c => c = ' ')).reverse.dropWhile
    (fun c => c = ' ')).reverse)

/-- Kernel-reducible join with a separator. -/
def strJoin (sep : String) : List String → String
  | [] => ""
  | [x] => x
  | x :: y :: rest => x ++ sep ++ strJoin sep (y :: rest)

/-- Accumulate decimal digits; fails on any non-digit. -/
def chNat : List Char → Nat → Option Nat
  | [], acc => some acc
  | c :: rest, acc =>
    if c.isDigit then chNat rest (acc * 10 + (c.toNat - 48)) else none

/-- Kernel-reducible integer literal parse. -/
def strToInt (s : String) : Option Int :=
  match s.data with
  | [] => none
  | '-' :: rest =>
    if rest.isEmpty then none
    else (chNat rest 0).map (fun n => -(n : Int))
  | l => (chNat l 0).map (fun n => (n : Int))

/-- Camel-casing of a hyphenated word list (lower-case letter, hyphen,
lower-case letter collapses to the upper-cased second letter). -/
def camelcaseAux : List Char → List Char
  | [] => []
  | '-' :: c :: rest =>
    if c.isLower then c.toUpper :: camelcaseAux rest
    else '-' :: camelcaseAux (c :: rest)
  | c :: rest => c :: camelcaseAux rest

/-- Modelled from the spec: `camelcase` lives in the repository's utils module,
which is not among the sources here.  Word-separated tokens are joined without
separators, later segments capitalized. -/
def camelcase (s : String) : String :=
  String.mk (camelcaseAux s.toList)

/-- Modelled from the spec: `camelcaseOptionName` from the missing utils
module.  Only the first dot-segment of a dotted option key is camel-cased, so
nested paths keep their tail segments verbatim. -/
def camelcaseOptionName (name : String) : String :=
  match strSplitOnC '.' name with
  | [] => name
  | seg :: rest => strJoin "." (camelcase seg :: rest)

/-- Modelled from the spec: `getFileName` from the missing utils module — the
final path component of the second raw argument, used as the program name. -/
def getFileName (s : String) : String :=
  ((strSplitOnC '/' s).flatMap (fun part => strSplitOnC '\\' part)).getLast?.getD ""

/-- First dot-segment of an option key: the top-level key that a dotted path
assignment writes to. -/
def firstSeg (k : String) : String :=
  match strSplitOnC '.' k with
  | [] => ""
  | seg :: _ => seg

/-- Value shape of a declared option: a bare flag, a flag with a required
value placeholder in angle brackets, or an optional one in square brackets. -/
inductive Shape where
  | boolean
  | requiredValue
  | optionalValue
deriving DecidableEq

/-- Configuration supplied when declaring an option.  A one-element array in
the source's `config.type` is modelled as `typeArray = some f`: the flag that
the option's value is collected into an array and coerced element-wise. -/
structure OptionConfig where
  default? : Option Value := none
  typeArray : Option (Value → Value) := none

/-- A declared option descriptor: alias names (camel-cased, sorted by length),
canonical name (the longest alias), value shape, negation flag, configuration. -/
structure CliOption where
  names : List String
  name : String
  shape : Shape
  negated : Bool
  config : OptionConfig

/-- A positional-argument descriptor of a command pattern. -/
structure CmdArg where
  name : String
  required : Bool
  variadic : Bool

/-- Per-command configuration recognized by the engine. -/
structure CommandConfig where
  allowUnknownOptions : Bool := false
  ignoreOptionDefaultValue : Bool := false

/-- A registered command: literal name (empty for the default command), its own
options, positional descriptors and optionally a bound handler.  The handler
receives the dispatch argument list and returns the stored result. -/
structure Command where
  name : String
  description : String
  config : CommandConfig := {}
  options : List CliOption := []
  args : List CmdArg := []
  commandAction : Option (List Value → Value) := none

/-- The program registry: name, sub-commands in registration order, the global
command holding global options, and the help/version feature flags. -/
structure CAC where
  name : String
  commands : List Command
  globalCommand : Command
  showHelpOnExit : Bool := false
  showVersionOnExit : Bool := false

/-- The result of one tokenizing pass: positional args and the options map. -/
structure ParsedArgv where
  args : List String
  options : List (String × Value)

/-- The invocation context built by each parse call. -/
structure CacCntx where
  env : Value
  name : String
  rawArgs : List String
  args : List String
  options : List (String × Value)
  matchedCommand : Option Command := none
  matchedCommandName : Option String := none
  result : Option Value := none

/-- Errors raised synchronously during validation. -/
inductive CacError where
  | unknownOption (name : String)
  | missingRequiredValue (name : String)
  | missingRequiredArg (name : String)
deriving DecidableEq

/-- Accumulator of the low-level tokenizer: positional tokens in source order
and the raw flag map. -/
structure MriAcc where
  args : List String
  options : List (String × Value)

/-- One entry of the per-parse transform table: the canonical name of an
option declared with an array-element coercion, a pending flag, and the
coercion function (mirrors the source's shouldTransform and transformFunction
fields). -/
structure Transform where
  name : String
  shouldTransform : Bool
  transformFunction : Value → Value

/-- Drop everything from the first angle or square bracket. -/
def takeUntilBracket : List Char → List Char
  | [] => []
  | c :: rest => if c = '<' ∨ c = '[' then [] else c :: takeUntilBracket rest

/-- Modelled from the spec: `removeBrackets` from the missing utils module —
the literal text before the first bracketed placeholder, trimmed. -/
def removeBrackets (s : String) : String :=
  strTrim (String.mk (takeUntilBracket s.data))

/-- Insert a string into a list sorted by non-decreasing length. -/
def insertByLen (s : String) : List String → List String
  | [] => [s]
  | x :: xs => if s.length ≤ x.length then s :: x :: xs else x :: insertByLen s xs

/-- Sort strings by length, shortest first, so the last is the longest. -/
def sortByLen : List String → List String
  | [] => []
  | x :: xs => insertByLen x (sortByLen xs)

/-- Modelled from the spec: the Option model (repository module `Option`, not
among the sources).  The raw declaration is split on commas; each alias is
trimmed, stripped of leading dashes and of a negating no- marker, camel-cased,
and the aliases are ordered by length with the longest as canonical name.  The
value shape comes from angle or square brackets, and a negated option implies
a default of true unless one was supplied. -/
def declareOption (rawName : String) (config : OptionConfig) : CliOption :=
  let aliases := (strSplitOnC ',' (removeBrackets rawName)).map (fun v =>
    String.mk ((strTrim v).data.dropWhile (fun c => c = '-')))
  let negated := aliases.any (fun n => strStarts "no-" n)
  let names := sortByLen (aliases.map (fun n =>
    camelcaseOptionName (if strStarts "no-" n then strDrop n 3 else n)))
  let shape : Shape :=
    if rawName.data.contains '<' then .requiredValue
    else if rawName.data.contains '[' then .optionalValue
    else .boolean
  let dflt :=
    if negated ∧ config.default?.isNone then some (Value.bool true)
    else config.default?
  { names := names
    name := (names.getLast?).getD ""
    shape := shape
    negated := negated
    config := { config with default? := dflt } }

/-- Inner name of a bracketed positional segment, with its variadic marker. -/
def innerName (seg : String) : String :=
  strDropRight (strDrop seg 1) 1

/-- Modelled from the spec: positional descriptors of a command pattern —
angle brackets declare a required positional, square brackets an optional one,
and a leading ellipsis inside the brackets marks the variadic tail. -/
def parseCmdArgs (rawName : String) : List CmdArg :=
  (strSplitOnC ' ' rawName).filterMap (fun seg =>
    if strStarts "<" seg ∨ strStarts "[" seg then
      let inner := innerName seg
      let variadic := strEnds "..." inner
      some { name := if variadic then strDropRight inner 3 else inner
             required := strStarts "<" seg
             variadic := variadic }
    else none)

/-- Modelled from the spec: the Command model (repository module `Command`,
not among the sources).  The literal name is everything before the first
bracket; bracketed segments become positional descriptors. -/
def declareCommand (rawName desc : String) (config : CommandConfig) : Command :=
  { name := removeBrackets rawName
    description := desc
    config := config
    options := []
    args := parseCmdArgs rawName
    commandAction := none }

/-- The distinguished global command created by the program constructor. -/
def globalCommandInit : Command :=
  declareCommand "@@global@@" "" {}

/-- A fresh program registry with the given display name. -/
def mkCAC (name : String) : CAC :=
  { name := name, commands := [], globalCommand := globalCommandInit }

/-- Register a sub-command (returns the updated registry). -/
def CAC.command (cac : CAC) (rawName desc : String) (config : CommandConfig) : CAC :=
  { cac with commands := cac.commands ++ [declareCommand rawName desc config] }

/-- Add a global option. -/
def CAC.option (cac : CAC) (rawName : String) (config : OptionConfig) : CAC :=
  { cac with globalCommand :=
      { cac.globalCommand with
          options := cac.globalCommand.options ++ [declareOption rawName config] } }

/-- Enable the help feature: registers the help flags and turns on the
short-circuit. -/
def CAC.help (cac : CAC) : CAC :=
  { cac with
      showHelpOnExit := true
      globalCommand :=
        { cac.globalCommand with
            options := cac.globalCommand.options ++ [declareOption "-h, --help" {}] } }

/-- Enable the version feature: registers the version flags and turns on the
short-circuit. -/
def CAC.version (cac : CAC) : CAC :=
  { cac with
      showVersionOnExit := true
      globalCommand :=
        { cac.globalCommand with
            options := cac.globalCommand.options ++ [declareOption "-v, --version" {}] } }

/-- A short-flag token: one dash followed by letters only. -/
def isShortTok (s : String) : Bool :=
  strStarts "-" s && !strStarts "--" s && decide (s.data.length ≥ 2)
    && (s.data.drop 1).all Char.isAlpha

/-- Whether a token looks like a flag (so a valued flag never consumes it). -/
def looksLikeFlag (s : String) : Bool :=
  (strStarts "--" s && decide (s.data.length > 2)) || isShortTok s

/-- Split a long-flag body at its first equals sign, if any. -/
def splitEq (s : String) : String × Option String :=
  match strSplitOnC '=' s with
  | [] => (s, none)
  | [k] => (k, none)
  | k :: rest => (k, some (strJoin "=" rest))

/-- The declared option owning a raw flag key, found through the camel-cased
alias names. -/
def findDeclared (opts : List CliOption) (k : String) : Option CliOption :=
  opts.find? (fun o => o.names.contains (camelcaseOptionName k))

/-- Whether a raw flag key is declared boolean (consumes no value token). -/
def isBooleanKey (opts : List CliOption) (k : String) : Bool :=
  match findDeclared opts k with
  | some o => o.shape == Shape.boolean
  | none => false

/-- A numeric literal becomes a number, anything else stays a string. -/
def numOrStr (s : String) : Value :=
  match strToInt s with
  | some n => Value.num n
  | none => Value.str s

/-- Coerce a raw flag value: options collected into arrays keep raw strings,
otherwise numeric literals become numbers. -/
def coerceVal (opts : List CliOption) (k : String) (v : String) : Value :=
  match findDeclared opts k with
  | some o => if o.config.typeArray.isSome then Value.str v else numOrStr v
  | none => numOrStr v

/-- Record a repeated plain flag: booleans overwrite, valued flags accumulate
into an array. -/
def mriInsert (m : List (String × Value)) (k : String) (v : Value) :
    List (String × Value) :=
  match lookupA m k with
  | none => m ++ [(k, v)]
  | some old =>
    match v with
    | .bool b => setAssoc m k (.bool b)
    | _ =>
      match old with
      | .arr xs => setAssoc m k (.arr (xs ++ [v]))
      | .bool _ => setAssoc m k v
      | _ => setAssoc m k (.arr [old, v])

/-- Record a flag declared with array collection: every occurrence is appended
to the array of raw occurrences. -/
def arrayInsert (m : List (String × Value)) (k : String) (v : Value) :
    List (String × Value) :=
  match lookupA m k with
  | some (.arr xs) => setAssoc m k (.arr (xs ++ [v]))
  | _ => setAssoc m k (.arr [v])

/-- Store a tokenized flag in the accumulator, mirroring the value to every
alias of the owning declared option. -/
def setFlag (opts : List CliOption) (acc : MriAcc) (k : String) (v : Value) :
    MriAcc :=
  match findDeclared opts k with
  | some o =>
    if o.config.typeArray.isSome then
      { acc with options := o.names.foldl (fun m n => arrayInsert m n v) acc.options }
    else
      { acc with options := o.names.foldl (fun m n => mriInsert m n v) acc.options }
  | none => { acc with options := mriInsert acc.options k v }

/-- Processing of a single token by the tokenizer when no flag is awaiting a
value: long flags may carry an inline value after an equals sign, a no- flag
records false, a boolean flag records true, any other flag starts waiting for
its value, grouped short flags expand to booleans, and everything else is a
positional token.  Returns the new accumulator and the flag now awaiting a
value, if any. -/
def tokOne (opts : List CliOption) (acc : MriAcc) (tok : String) :
    MriAcc × Option String :=
  if strStarts "--" tok && decide (tok.data.length > 2) then
    let body := strDrop tok 2
    match (splitEq body).2 with
    | some v =>
      (setFlag opts acc (splitEq body).1 (coerceVal opts (splitEq body).1 v), none)
    | none =>
      if strStarts "no-" body then
        (setFlag opts acc (strDrop body 3) (.bool false), none)
      else if isBooleanKey opts body then
        (setFlag opts acc body (.bool true), none)
      else (acc, some body)
  else if isShortTok tok then
    match tok.data.drop 1 with
    | [c] =>
      let k := String.mk [c]
      if isBooleanKey opts k then (setFlag opts acc k (.bool true), none)
      else (acc, some k)
    | cs =>
      (cs.foldl (fun a c => setFlag opts a (String.mk [c]) (.bool true)) acc, none)
  else ({ acc with args := acc.args ++ [tok] }, none)

/-- Modelled from the spec: the low-level tokenizer (the external flag parsing
the source delegates to, configured by the missing `getMriOptions` of the utils
module).  Left-to-right scan with one token of lookahead: a flag that is not
declared boolean consumes the next token as its value unless that token itself
looks like a flag, in which case (or at the end of input) it records true. -/
def tokenizeGo (opts : List CliOption) :
    List String → MriAcc → Option String → MriAcc
  | [], acc, pending =>
    match pending with
    | some k => setFlag opts acc k (.bool true)
    | none => acc
  | tok :: rest, acc, pending =>
    match pending with
    | some k =>
      if looksLikeFlag tok then
        let p := tokOne opts (setFlag opts acc k (.bool true)) tok
        tokenizeGo opts rest p.1 p.2
      else
        tokenizeGo opts rest (setFlag opts acc k (coerceVal opts k tok)) none
    | none =>
      let p := tokOne opts acc tok
      tokenizeGo opts rest p.1 p.2

/-- Index of the first standalone double-dash token. -/
def ddIndex (argv : List String) : Option Nat :=
  argv.findIdx? (fun t => t == "--")

/-- The tokens before the first standalone double-dash (all of them when there
is none): the only part the flag scanner sees. -/
def preDD (argv : List String) : List String :=
  match ddIndex argv with
  | some i => argv.take i
  | none => argv

/-- The raw passthrough tail: every token after the first standalone
double-dash, verbatim. -/
def tailDD (argv : List String) : List String :=
  match ddIndex argv with
  | some i => argv.drop (i + 1)
  | none => []

/-- The active option set of one tokenizing pass: global options followed by
the candidate command's own options. -/
def cliOptionsOf (cac : CAC) (command : Option Command) : List CliOption :=
  cac.globalCommand.options ++
    (match command with
     | some c => c.options
     | none => [])

/-- The effective ignoreOptionDefaultValue switch: the candidate command's own
flag when it is set, the global one otherwise. -/
def ignoreDefaultEff (cac : CAC) (command : Option Command) : Bool :=
  match command with
  | some c =>
    if c.config.ignoreOptionDefaultValue then true
    else cac.globalCommand.config.ignoreOptionDefaultValue
  | none => cac.globalCommand.config.ignoreOptionDefaultValue

/-- The tokenizer output on the pre-double-dash tokens. -/
def rawParsed (cac : CAC) (argv : List String) (command : Option Command) :
    MriAcc :=
  tokenizeGo (cliOptionsOf cac command) (preDD argv) ⟨[], []⟩ none

/-- Rebuild the raw flag map with camel-cased keys (later duplicates win). -/
def camelKeyedGo : List (String × Value) → List (String × Value) →
    List (String × Value)
  | [], acc => acc
  | kv :: rest, acc => camelKeyedGo rest (setAssoc acc (camelcaseOptionName kv.1) kv.2)

/-- The camel-cased raw option map of one tokenizing pass. -/
def parsedOptsOf (cac : CAC) (argv : List String) (command : Option Command) :
    List (String × Value) :=
  camelKeyedGo (rawParsed cac argv command).options []

/-- Seed one default value under a list of alias names. -/
def seedNames : List String → Value → List (String × Value) →
    List (String × Value)
  | [], _, m => m
  | n :: rest, d, m => seedNames rest d (setAssoc m n d)

/-- Seed every declared option's default under every one of its alias names,
unless default filling is suppressed. -/
def seedDefaults (ignoreDefault : Bool) : List CliOption →
    List (String × Value) → List (String × Value)
  | [], m => m
  | o :: rest, m =>
    let m1 :=
      if !ignoreDefault && (o.config.default?).isSome then
        seedNames o.names ((o.config.default?).getD .undef) m
      else m
    seedDefaults ignoreDefault rest m1

/-- Build the transform table: one pending entry per canonical name of an
option declared with an array-element coercion (first declaration wins). -/
def mkTransforms : List CliOption → List Transform → List Transform
  | [], tr => tr
  | o :: rest, tr =>
    let tr1 :=
      match o.config.typeArray with
      | some f =>
        if (tr.find? (fun t => t.name == o.name)).isSome then tr
        else tr ++ [⟨o.name, true, f⟩]
      | none => tr
    mkTransforms rest tr1

/-- Modelled from the spec: `setDotProp` from the missing utils module —
split-path assignment into a nested mapping, creating levels as needed, later
writes overwriting earlier ones at the same path. -/
def setDotProp : List (String × Value) → List String → Value →
    List (String × Value)
  | m, [], _ => m
  | m, [k], v => setAssoc m k v
  | m, k :: k2 :: rest, v =>
    let child :=
      match lookupA m k with
      | some (.obj fields) => fields
      | _ => []
    setAssoc m k (.obj (setDotProp child (k2 :: rest) v))

/-- One transform entry applied to the options mapping: a pending entry whose
key holds an array maps the coercion over the elements and is re-emitted
spent; any other entry leaves the mapping untouched and is re-emitted as is. -/
def setByTypeStep (m : List (String × Value)) (t : Transform) :
    List (String × Value) × Transform :=
  if t.shouldTransform then
    match lookupA m t.name with
    | some (.arr xs) =>
      (setAssoc m t.name (.arr (xs.map t.transformFunction)),
        ⟨t.name, false, t.transformFunction⟩)
    | _ => (m, t)
  else (m, t)

/-- Modelled from the spec: `setByType` from the missing utils module.  Each
pending transform whose entry holds an array value maps the coercion over the
elements and is marked done, so the coercion is applied exactly once per
assignment pass even though the key loop invokes this step once per key. -/
def setByTypeGo : List (String × Value) → List Transform →
    List (String × Value) × List Transform
  | m, [] => (m, [])
  | m, t :: rest =>
    let s := setByTypeStep m t
    let p := setByTypeGo s.1 rest
    (p.1, s.2 :: p.2)

/-- The option-assignment key loop: for each parsed key, a dot-path assignment
followed by the transform step, as in the source. -/
def assignKeys : List (String × Value) → List (String × Value) →
    List Transform → List (String × Value) × List Transform
  | [], m, tr => (m, tr)
  | kv :: rest, m, tr =>
    let m1 := setDotProp m (strSplitOnC '.' kv.1) kv.2
    let p := setByTypeGo m1 tr
    assignKeys rest p.1 p.2

/-- One tokenizing-and-assignment pass for a candidate command: extract the
passthrough tail, tokenize the remainder with the candidate's option set,
camel-case the keys, seed defaults, and run the assignment loop.  The reserved
passthrough entry is created first. -/
def CAC.mri (cac : CAC) (argv : List String) (command : Option Command) :
    ParsedArgv :=
  { args := (rawParsed cac argv command).args
    options := (assignKeys (parsedOptsOf cac argv command)
      (seedDefaults (ignoreDefaultEff cac command) (cliOptionsOf cac command)
        [("--", Value.arr ((tailDD argv).map Value.str))])
      (mkTransforms (cliOptionsOf cac command) [])).1 }

/-- Store a parse result in the context; the command is recorded when one is
given, and the name only when it is a truthy (non-empty) string. -/
def setParsedInfo (cntx : CacCntx) (p : ParsedArgv) (mc : Option Command)
    (mcn : Option String) : CacCntx :=
  let c1 := { cntx with args := p.args, options := p.options }
  let c2 :=
    match mc with
    | some c => { c1 with matchedCommand := some c }
    | none => c1
  match mcn with
  | some n => if n ≠ "" then { c2 with matchedCommandName := some n } else c2
  | none => c2

/-- Modelled from the spec: Command.isMatched (repository module `Command`,
not among the sources) — the candidate matches when the first positional token
equals its literal name. -/
def isMatched (c : Command) : Option String → Bool
  | some n => c.name == n
  | none => false

/-- Whether a candidate command matches this invocation: its own tokenizing
pass puts its literal name first among the positionals. -/
def cmdMatches (cac : CAC) (argv2 : List String) (c : Command) : Bool :=
  isMatched c (cac.mri argv2 (some c)).args.head?

/-- The search over registered sub-commands: each matching candidate in turn
stores its parse result (with the matched name segment dropped) and clears the
should-parse flag; the loop never stops early. -/
def matchLoop (cac : CAC) (argv2 : List String) :
    List Command → CacCntx × Bool → CacCntx × Bool
  | [], st => st
  | command :: rest, st =>
    if cmdMatches cac argv2 command then
      let parsed := cac.mri argv2 (some command)
      matchLoop cac argv2 rest
        (setParsedInfo st.1 { args := parsed.args.drop 1, options := parsed.options }
          (some command) parsed.args.head?, false)
    else matchLoop cac argv2 rest st

/-- The search for a default (empty-name) command, run only when no
sub-command matched; every default command stores its parse result in turn. -/
def defaultLoop (cac : CAC) (argv2 : List String) :
    List Command → CacCntx × Bool → CacCntx × Bool
  | [], st => st
  | command :: rest, st =>
    if command.name == "" then
      defaultLoop cac argv2 rest
        (setParsedInfo st.1 (cac.mri argv2 (some command)) (some command) none, false)
    else defaultLoop cac argv2 rest st

/-- The fresh invocation context of a parse call: the program name comes from
the second raw argument whenever the constructor name or that argument is
truthy, and the literal cli only when both are falsy. -/
def parseInit (cac : CAC) (env : Value) (argv : List String) : CacCntx :=
  { env := env
    rawArgs := argv
    name :=
      if cac.name ≠ "" ∨ ((argv.get? 1).getD "") ≠ "" then
        getFileName ((argv.get? 1).getD "")
      else "cli"
    args := []
    options := [] }

/-- The default-command stage: searched only when no sub-command matched. -/
def parseDef (cac : CAC) (argv2 : List String) (st : CacCntx × Bool) :
    CacCntx × Bool :=
  if st.2 then defaultLoop cac argv2 cac.commands st else st

/-- The final plain global parse, when neither stage matched. -/
def parseFinish (cac : CAC) (argv2 : List String) (st : CacCntx × Bool) :
    CacCntx :=
  if st.2 then setParsedInfo st.1 (cac.mri argv2 none) none none else st.1

/-- The matching stages of parse: build the fresh context, try each
sub-command, then the default command, then a plain global parse. -/
def CAC.parseMatched (cac : CAC) (env : Value) (argv : List String) : CacCntx :=
  parseFinish cac (argv.drop 2)
    (parseDef cac (argv.drop 2)
      (matchLoop cac (argv.drop 2) cac.commands (parseInit cac env argv, true)))

/-- All declared names in scope of a matched command: global aliases plus the
command's own. -/
def declaredNames (cac : CAC) (command : Command) : List String :=
  (cac.globalCommand.options ++ command.options).flatMap (fun o => o.names)

/-- Modelled from the spec: Command.checkUnknownOptions (repository module
`Command`, not among the sources) — unless the command disabled the check, an
option key other than the reserved passthrough key that is not declared in the
global or command scope raises an Unknown-Option error. -/
def checkUnknownOptions (cac : CAC) (command : Command) (cntx : CacCntx) :
    Except CacError Unit :=
  if command.config.allowUnknownOptions then .ok ()
  else
    match cntx.options.find? (fun kv =>
        kv.1 != "--" && !(declaredNames cac command).contains kv.1) with
    | some kv => .error (.unknownOption kv.1)
    | none => .ok ()

/-- Modelled from the spec: Command.checkOptionValue (repository module
`Command`, not among the sources) — a declared required-value option whose
final resolved value is undefined raises a Missing-Required-Value error. -/
def checkOptionValue (cac : CAC) (command : Command) (cntx : CacCntx) :
    Except CacError Unit :=
  match (cac.globalCommand.options ++ command.options).find? (fun o =>
      o.shape == Shape.requiredValue &&
        (match lookupA cntx.options o.name with
         | none => true
         | some .undef => true
         | some _ => false)) with
  | some o => .error (.missingRequiredValue o.name)
  | none => .ok ()

/-- Modelled from the spec: Command.checkRequiredArgs (repository module
`Command`, not among the sources) — fewer positional tokens than declared
required non-variadic positionals raises a Missing-Required-Argument error. -/
def checkRequiredArgs (command : Command) (cntx : CacCntx) :
    Except CacError Unit :=
  if cntx.args.length <
      (command.args.filter (fun a => a.required && !a.variadic)).length then
    .error (.missingRequiredArg command.name)
  else .ok ()

/-- Expansion of the declared positionals for dispatch, starting at an index:
a variadic descriptor takes all remaining positional tokens as a sequence, any
other takes the token at its own index, or undefined when absent. -/
def expandArgsFrom (args : List String) : Nat → List CmdArg → List Value
  | _, [] => []
  | i, d :: rest =>
    (if d.variadic then Value.arr ((args.drop i).map Value.str)
     else
       match args.get? i with
       | some s => Value.str s
       | none => Value.undef) :: expandArgsFrom args (i + 1) rest

/-- The dispatch argument expansion over all declared positionals. -/
def expandArgs (descs : List CmdArg) (args : List String) : List Value :=
  expandArgsFrom args 0 descs

/-- Validation and dispatch of the matched command: nothing happens without a
matched command carrying a handler; otherwise the three validations run in
order and the handler receives the environment, the expanded positionals and
the options mapping. -/
def CAC.runMatchedCommand (cac : CAC) (cntx : CacCntx) : Except CacError Value :=
  match cntx.matchedCommand with
  | none => .ok .undef
  | some command =>
    match command.commandAction with
    | none => .ok .undef
    | some act =>
      match checkUnknownOptions cac command cntx with
      | .error e => .error e
      | .ok _ =>
        match checkOptionValue cac command cntx with
        | .error e => .error e
        | .ok _ =>
          match checkRequiredArgs command cntx with
          | .error e => .error e
          | .ok _ =>
            .ok (act ([cntx.env] ++ expandArgs command.args cntx.args ++
              [Value.obj cntx.options]))

/-- The help short-circuit: when the help flag is truthy and the feature is
enabled, the run flag is cleared and the matched command unset. -/
def helpStep (cac : CAC) (run : Bool) (cntx : CacCntx) : CacCntx × Bool :=
  if jsTruthy (lookupA cntx.options "help") && cac.showHelpOnExit then
    ({ cntx with matchedCommand := none, matchedCommandName := none }, false)
  else (cntx, run)

/-- The version short-circuit: it additionally requires that no command name
was matched. -/
def versionStep (cac : CAC) (st : CacCntx × Bool) : CacCntx × Bool :=
  if jsTruthy (lookupA st.1.options "version") && cac.showVersionOnExit
      && st.1.matchedCommandName.isNone then
    ({ st.1 with matchedCommand := none, matchedCommandName := none }, false)
  else st

/-- The dispatch stage: when still requested, run the matched command and
store its result; validation errors propagate. -/
def runStep (cac : CAC) (st : CacCntx × Bool) : Except CacError CacCntx :=
  if st.2 then
    match cac.runMatchedCommand st.1 with
    | .error e => .error e
    | .ok v => .ok { st.1 with result := some v }
  else .ok st.1

/-- The full parse call: matching stages, then the help and version
short-circuits, then dispatch when still requested.  Validation errors
propagate to the caller uncaught. -/
def CAC.parse (cac : CAC) (env : Value) (argv : List String) (run : Bool) :
    Except CacError CacCntx :=
  runStep cac (versionStep cac (helpStep cac run (cac.parseMatched env argv)))

/-- The parse call with the registry threaded through explicitly: the source
method assigns only to the fresh context and its local flags, never to the
registry, so the translation returns the registry unchanged alongside the
result. -/
def CAC.parseR (cac : CAC) (env : Value) (argv : List String) (run : Bool) :
    CAC × Except CacError CacCntx :=
  (cac, cac.parse env argv run)

/-! Association-list lemmas. -/

theorem lookupA_setAssoc_self (m : List (String × Value)) (k : String)
    (v : Value) : lookupA (setAssoc m k v) k = some v := by
  induction m with
  | nil => simp [setAssoc, lookupA]
  | cons kv rest ih =>
    by_cases h : kv.1 = k
    · simp [setAssoc, h, lookupA]
    · simp [setAssoc, h, lookupA, ih]

theorem lookupA_setAssoc_ne (m : List (String × Value)) (k n : String)
    (v : Value) (h : n ≠ k) : lookupA (setAssoc m k v) n = lookupA m n := by
  induction m with
  | nil => simp [setAssoc, lookupA, Ne.symm h]
  | cons kv rest ih =>
    by_cases hk : kv.1 = k
    · subst hk
      simp [setAssoc, lookupA, Ne.symm h]
    · by_cases hn : kv.1 = n
      · simp [setAssoc, hk, lookupA, hn, h]
      · simp [setAssoc, hk, lookupA, hn, ih]

theorem lookupA_setAssoc_isSome (m : List (String × Value)) (k n : String)
    (v : Value) (h : (lookupA m n).isSome = true) :
    (lookupA (setAssoc m k v) n).isSome = true := by
  by_cases hk : n = k
  · subst hk
    simp [lookupA_setAssoc_self]
  · rwa [lookupA_setAssoc_ne m k n v hk]

/-- A dot-path assignment leaves every other top-level key unchanged. -/
theorem lookupA_setDotProp_ne (p : List String) (m : List (String × Value))
    (v : Value) (n : String) (h : ∀ k ∈ p.head?, k ≠ n) :
    lookupA (setDotProp m p v) n = lookupA m n := by
  match p with
  | [] => rfl
  | [k] =>
    exact lookupA_setAssoc_ne m k n v (fun he => h k rfl he.symm)
  | k :: k2 :: rest =>
    exact lookupA_setAssoc_ne m k n _ (fun he => h k rfl he.symm)

/-- Lookup along a dot path in a nested mapping. -/
def lookupPath : List (String × Value) → List String → Option Value
  | _, [] => none
  | m, [k] => lookupA m k
  | m, k :: k2 :: rest =>
    match lookupA m k with
    | some (.obj fields) => lookupPath fields (k2 :: rest)
    | _ => none

/-- A dot-path assignment is found again along the same path. -/
theorem lookupPath_setDotProp (p : List String) :
    ∀ (m : List (String × Value)) (v : Value), p ≠ [] →
      lookupPath (setDotProp m p v) p = some v := by
  induction p with
  | nil => intro m v h; exact absurd rfl h
  | cons k rest ih =>
    intro m v _
    match rest with
    | [] => simp [setDotProp, lookupPath, lookupA_setAssoc_self]
    | k2 :: rest2 =>
      simp only [setDotProp, lookupPath, lookupA_setAssoc_self]
      exact ih _ v (by simp)

/-! Name preservation through the parse stages. -/

theorem setParsedInfo_name (cntx : CacCntx) (p : ParsedArgv)
    (mc : Option Command) (mcn : Option String) :
    (setParsedInfo cntx p mc mcn).name = cntx.name := by
  unfold setParsedInfo
  cases mc <;> cases mcn <;> dsimp only <;> try rfl
  all_goals split <;> rfl

theorem matchLoop_name (cac : CAC) (argv2 : List String)
    (cmds : List Command) : ∀ st : CacCntx × Bool,
    ((matchLoop cac argv2 cmds st).1).name = st.1.name := by
  induction cmds with
  | nil => intro st; rfl
  | cons c rest ih =>
    intro st
    unfold matchLoop
    split
    · rw [ih]; exact setParsedInfo_name _ _ _ _
    · exact ih st

theorem defaultLoop_name (cac : CAC) (argv2 : List String)
    (cmds : List Command) : ∀ st : CacCntx × Bool,
    ((defaultLoop cac argv2 cmds st).1).name = st.1.name := by
  induction cmds with
  | nil => intro st; rfl
  | cons c rest ih =>
    intro st
    unfold defaultLoop
    split
    · rw [ih]; exact setParsedInfo_name _ _ _ _
    · exact ih st

theorem parseFinish_name (cac : CAC) (argv2 : List String)
    (st : CacCntx × Bool) : (parseFinish cac argv2 st).name = st.1.name := by
  unfold parseFinish
  split
  · exact setParsedInfo_name _ _ _ _
  · rfl

theorem parseDef_name (cac : CAC) (argv2 : List String) (st : CacCntx × Bool) :
    ((parseDef cac argv2 st)).1.name = st.1.name := by
  unfold parseDef
  split
  · exact defaultLoop_name _ _ _ _
  · rfl

theorem parseMatched_name (cac : CAC) (env : Value) (argv : List String) :
    (cac.parseMatched env argv).name =
      (if cac.name ≠ "" ∨ ((argv.get? 1).getD "") ≠ "" then
        getFileName ((argv.get? 1).getD "")
      else "cli") := by
  unfold CAC.parseMatched
  rw [parseFinish_name, parseDef_name, matchLoop_name]
  rfl

theorem helpStep_name (cac : CAC) (run : Bool) (cntx : CacCntx) :
    (helpStep cac run cntx).1.name = cntx.name := by
  unfold helpStep
  split <;> rfl

theorem versionStep_name (cac : CAC) (st : CacCntx × Bool) :
    (versionStep cac st).1.name = st.1.name := by
  unfold versionStep
  split <;> rfl

theorem runStep_ok_name (cac : CAC) (st : CacCntx × Bool) (cntx : CacCntx)
    (h : runStep cac st = .ok cntx) : cntx.name = st.1.name := by
  unfold runStep at h
  split at h
  · split at h
    · exact Except.noConfusion h
    · cases h
      rfl
  · cases h
    rfl

theorem parse_ok_name (cac : CAC) (env : Value) (argv : List String)
    (run : Bool) (cntx : CacCntx) (h : cac.parse env argv run = .ok cntx) :
    cntx.name = (cac.parseMatched env argv).name := by
  have h1 := runStep_ok_name cac _ cntx h
  rw [h1, versionStep_name, helpStep_name]

/-- C10: for every parse call, the returned context's name is computed from
the second raw argument via getFileName whenever the constructor-supplied
program name is non-empty or that argument is truthy — the constructor name
itself is never used as the context name — and the literal cli is used only
when the program name is empty and the second raw argument is falsy. -/
theorem c10_program_name (cac : CAC) (env : Value) (argv : List String) :
    ((cac.name ≠ "" ∨ ((argv.get? 1).getD "") ≠ "") →
      (cac.parseMatched env argv).name = getFileName ((argv.get? 1).getD "")) ∧
    ((cac.name = "" ∧ ((argv.get? 1).getD "") = "") →
      (cac.parseMatched env argv).name = "cli") ∧
    (∀ (run : Bool) (cntx : CacCntx), cac.parse env argv run = .ok cntx →
      cntx.name = (cac.parseMatched env argv).name) := by
  refine ⟨?_, ?_, ?_⟩
  · intro h
    rw [parseMatched_name, if_pos h]
  · intro h
    rw [parseMatched_name,
      if_neg (fun hc => hc.elim (fun hne => hne h.1) (fun hne => hne h.2))]
  · intro run cntx h
    exact parse_ok_name cac env argv run cntx h

/-- Witness for C10: a non-empty constructor name is ignored in favor of the
basename of the second raw argument, and the cli fallback appears only when
both are falsy. -/
theorem c10_program_name_witness :
    ((mkCAC "prog").parseMatched Value.null ["node", "/usr/bin/app"]).name = "app" ∧
    ((mkCAC "").parseMatched Value.null ["node"]).name = "cli" := by
  constructor
  · rw [(c10_program_name (mkCAC "prog") Value.null ["node", "/usr/bin/app"]).1
      (Or.inl (by decide))]
    decide
  · exact (c10_program_name (mkCAC "") Value.null ["node"]).2.1 ⟨rfl, rfl⟩

/-- C7: a raw option key containing dot separators is split on the dots and
its value written into a nested mapping along that path — a later key
overwrites an earlier one at the same path — so that the two dotted keys of
the concrete example below produce one nested object, not two competing
top-level keys. -/
theorem c7_dot_path :
    (∀ (m : List (String × Value)) (p : List String) (v : Value), p ≠ [] →
      lookupPath (setDotProp m p v) p = some v) ∧
    (∀ (m : List (String × Value)) (p : List String) (v1 v2 : Value), p ≠ [] →
      lookupPath (setDotProp (setDotProp m p v1) p v2) p = some v2) ∧
    lookupA ((mkCAC "").mri ["--a.b=1", "--a.c=2"] none).options "a" =
      some (.obj [("b", .num 1), ("c", .num 2)]) := by
  refine ⟨?_, ?_, ?_⟩
  · intro m p v h
    exact lookupPath_setDotProp p m v h
  · intro m p v1 v2 h
    exact lookupPath_setDotProp p (setDotProp m p v1) v2 h
  · rfl

/-- Witness for C7: the path lemmas applied at a concrete two-segment path. -/
theorem c7_dot_path_witness :
    lookupPath (setDotProp [] ["a", "b"] (.num 1)) ["a", "b"] = some (.num 1) ∧
    lookupPath (setDotProp (setDotProp [] ["a", "b"] (.num 1)) ["a", "b"]
      (.num 2)) ["a", "b"] = some (.num 2) :=
  ⟨c7_dot_path.1 [] ["a", "b"] (.num 1) (by simp),
   c7_dot_path.2.1 [] ["a", "b"] (.num 1) (.num 2) (by simp)⟩

/-- C9: every parse call constructs a fresh context and fresh parse results
and leaves the registry unchanged — the commands list, the command option
sets and the global option set after parse equal their values before — and
two parse calls on the same registry with the same env and argv produce
contexts with equal args and options. -/
theorem c9_frame (cac : CAC) (env : Value) (argv : List String) (run : Bool) :
    (cac.parseR env argv run).1 = cac ∧
    (cac.parseR env argv run).1.commands = cac.commands ∧
    (cac.parseR env argv run).1.globalCommand.options =
      cac.globalCommand.options ∧
    ((cac.parseR env argv run).1.parseR env argv run).2 =
      (cac.parseR env argv run).2 ∧
    (∀ c1 c2 : CacCntx, cac.parse env argv run = .ok c1 →
      ((cac.parseR env argv run).1.parse env argv run) = .ok c2 →
      c1.args = c2.args ∧ c1.options = c2.options) := by
  refine ⟨rfl, rfl, rfl, rfl, ?_⟩
  intro c1 c2 h1 h2
  have h2a : cac.parse env argv run = .ok c2 := h2
  rw [h1] at h2a
  cases h2a
  exact ⟨rfl, rfl⟩

/-- Witness for C9: two consecutive parse calls on a concrete registry give
the same context. -/
theorem c9_frame_witness :
    ∃ c : CacCntx, (mkCAC "").parse Value.null ["node", "cli"] false = .ok c ∧
      c.args = c.args ∧ c.options = c.options := by
  refine ⟨(mkCAC "").parseMatched Value.null ["node", "cli"], rfl, ?_⟩
  exact (c9_frame (mkCAC "") Value.null ["node", "cli"] false).2.2.2.2 _ _ rfl rfl

/-! The command-matching characterization: each matching candidate re-binds
the context in registration order, so the last match wins. -/

/-- The last element of a list when there is one, a fallback otherwise. -/
def lastOr (l : List Command) (x : Option Command) : Option Command :=
  match l.getLast? with
  | some c => some c
  | none => x

theorem lastOr_none (l : List Command) : lastOr l none = l.getLast? := by
  unfold lastOr
  cases l.getLast? <;> rfl

theorem lastOr_cons (c : Command) (l : List Command) (x : Option Command) :
    lastOr (c :: l) x = lastOr l (some c) := by
  unfold lastOr
  cases l with
  | nil => rfl
  | cons d t =>
    rw [List.getLast?_cons_cons]
    cases hL : (d :: t).getLast? with
    | some e => rfl
    | none => exact absurd (List.getLast?_eq_none_iff.mp hL) (by simp)

theorem lastOr_ne_nil (l : List Command) (x : Option Command) (h : l ≠ []) :
    lastOr l x = l.getLast? := by
  unfold lastOr
  cases hL : l.getLast? with
  | some c => rfl
  | none => exact absurd (List.getLast?_eq_none_iff.mp hL) h

theorem setParsedInfo_matched_some (cntx : CacCntx) (p : ParsedArgv)
    (c : Command) (mcn : Option String) :
    (setParsedInfo cntx p (some c) mcn).matchedCommand = some c := by
  unfold setParsedInfo
  cases mcn with
  | none => rfl
  | some n => dsimp only; split <;> rfl

theorem setParsedInfo_matched_none (cntx : CacCntx) (p : ParsedArgv)
    (mcn : Option String) :
    (setParsedInfo cntx p none mcn).matchedCommand = cntx.matchedCommand := by
  unfold setParsedInfo
  cases mcn with
  | none => rfl
  | some n => dsimp only; split <;> rfl

theorem matchLoop_matched (cac : CAC) (argv2 : List String)
    (cmds : List Command) : ∀ st : CacCntx × Bool,
    ((matchLoop cac argv2 cmds st).1).matchedCommand =
      lastOr (cmds.filter (cmdMatches cac argv2)) st.1.matchedCommand := by
  induction cmds with
  | nil => intro st; rfl
  | cons c rest ih =>
    intro st
    unfold matchLoop
    by_cases h : cmdMatches cac argv2 c = true
    · rw [if_pos h, ih, List.filter_cons_of_pos h, lastOr_cons,
        setParsedInfo_matched_some]
    · rw [if_neg h, ih, List.filter_cons_of_neg (by simpa using h)]

theorem matchLoop_flag (cac : CAC) (argv2 : List String)
    (cmds : List Command) : ∀ st : CacCntx × Bool,
    (matchLoop cac argv2 cmds st).2 =
      (st.2 && (cmds.filter (cmdMatches cac argv2)).isEmpty) := by
  induction cmds with
  | nil => intro st; simp [matchLoop]
  | cons c rest ih =>
    intro st
    unfold matchLoop
    by_cases h : cmdMatches cac argv2 c = true
    · rw [if_pos h, ih, List.filter_cons_of_pos h]
      simp
    · rw [if_neg h, ih, List.filter_cons_of_neg (by simpa using h)]

theorem defaultLoop_matched (cac : CAC) (argv2 : List String)
    (cmds : List Command) : ∀ st : CacCntx × Bool,
    ((defaultLoop cac argv2 cmds st).1).matchedCommand =
      lastOr (cmds.filter (fun c => c.name == "")) st.1.matchedCommand := by
  induction cmds with
  | nil => intro st; rfl
  | cons c rest ih =>
    intro st
    unfold defaultLoop
    by_cases h : (c.name == "") = true
    · have hfil : List.filter (fun c => c.name == "") (c :: rest) =
          c :: List.filter (fun c => c.name == "") rest := by
        simp [List.filter_cons, h]
      rw [if_pos h, ih, hfil, lastOr_cons, setParsedInfo_matched_some]
    · have hfil : List.filter (fun c => c.name == "") (c :: rest) =
          List.filter (fun c => c.name == "") rest := by
        simp [List.filter_cons, h]
      rw [if_neg h, ih, hfil]

theorem parseFinish_matched (cac : CAC) (argv2 : List String)
    (st : CacCntx × Bool) :
    (parseFinish cac argv2 st).matchedCommand = st.1.matchedCommand := by
  unfold parseFinish
  split
  · exact setParsedInfo_matched_none _ _ _
  · rfl

/-- Which command the matching stages bind: the last registered command whose
own parse puts its literal name first among the positionals; when none
matches, the last registered default command, if any. -/
theorem parseMatched_matched (cac : CAC) (env : Value) (argv : List String) :
    (cac.parseMatched env argv).matchedCommand =
      lastOr (cac.commands.filter (cmdMatches cac (argv.drop 2)))
        ((cac.commands.filter (fun c => c.name == "")).getLast?) := by
  have hm := matchLoop_matched cac (argv.drop 2) cac.commands
    (parseInit cac env argv, true)
  have hf := matchLoop_flag cac (argv.drop 2) cac.commands
    (parseInit cac env argv, true)
  unfold CAC.parseMatched
  rw [parseFinish_matched]
  unfold parseDef
  split
  case isTrue h2 =>
    rw [defaultLoop_matched, hm]
    have hF : cac.commands.filter (cmdMatches cac (argv.drop 2)) = [] := by
      rw [hf] at h2
      simpa [List.isEmpty_iff] using h2
    rw [hF]
    exact lastOr_none _
  case isFalse h2 =>
    rw [hm]
    have hF : cac.commands.filter (cmdMatches cac (argv.drop 2)) ≠ [] := by
      rw [hf] at h2
      simpa [List.isEmpty_iff] using h2
    rw [lastOr_ne_nil _ _ hF, lastOr_ne_nil _ _ hF]

theorem helpStep_feature_off (cac : CAC) (run : Bool) (cntx : CacCntx)
    (h : cac.showHelpOnExit = false) : helpStep cac run cntx = (cntx, run) := by
  unfold helpStep
  rw [h]
  simp

theorem versionStep_feature_off (cac : CAC) (st : CacCntx × Bool)
    (h : cac.showVersionOnExit = false) : versionStep cac st = st := by
  unfold versionStep
  rw [h]
  simp

/-- C1 (amended): at most one command is ever bound per parse; candidates are
tried in registration order, but each matching candidate re-binds the context,
so the LAST registered command whose own parse puts its literal name first
among the positional tokens wins (not the first); when none matches, the last
registered default (empty-name) command is bound if one exists, else no
command.  In particular, with commands build and a default command registered
in either order, a first token build binds the build command, and an
unrecognized first token binds the default command. -/
theorem c1_matching (cac : CAC) (env : Value) (argv : List String)
    (h1 : cac.showHelpOnExit = false) (h2 : cac.showVersionOnExit = false) :
    ∃ cntx : CacCntx, cac.parse env argv false = .ok cntx ∧
      cntx.matchedCommand =
        lastOr (cac.commands.filter (cmdMatches cac (argv.drop 2)))
          ((cac.commands.filter (fun c => c.name == "")).getLast?) := by
  unfold CAC.parse
  rw [helpStep_feature_off cac false (cac.parseMatched env argv) h1,
    versionStep_feature_off cac _ h2]
  exact ⟨cac.parseMatched env argv, rfl, parseMatched_matched cac env argv⟩

/-- The build-plus-default registry of the C1 example, default registered
second. -/
def cacC1w : CAC :=
  { mkCAC "" with commands :=
      [declareCommand "build" "Build" {}, declareCommand "" "Default" {}] }

/-- The same two commands registered in the other order. -/
def cacC1x : CAC :=
  { mkCAC "" with commands :=
      [declareCommand "" "Default" {}, declareCommand "build" "Build" {}] }

/-- Witness for C1: in either registration order, a first token build binds
the build command, and an unrecognized first token binds the default. -/
theorem c1_matching_witness :
    (∃ cntx : CacCntx,
      cacC1w.parse Value.null ["node", "cli", "build"] false = .ok cntx ∧
        cntx.matchedCommand.map (fun c => c.description) = some "Build") ∧
    (∃ cntx : CacCntx,
      cacC1x.parse Value.null ["node", "cli", "build"] false = .ok cntx ∧
        cntx.matchedCommand.map (fun c => c.description) = some "Build") ∧
    (∃ cntx : CacCntx,
      cacC1w.parse Value.null ["node", "cli", "other"] false = .ok cntx ∧
        cntx.matchedCommand.map (fun c => c.description) = some "Default") := by
  refine ⟨?_, ?_, ?_⟩
  · obtain ⟨cntx, hp, hm⟩ :=
      c1_matching cacC1w Value.null ["node", "cli", "build"] rfl rfl
    exact ⟨cntx, hp, by rw [hm]; rfl⟩
  · obtain ⟨cntx, hp, hm⟩ :=
      c1_matching cacC1x Value.null ["node", "cli", "build"] rfl rfl
    exact ⟨cntx, hp, by rw [hm]; rfl⟩
  · obtain ⟨cntx, hp, hm⟩ :=
      c1_matching cacC1w Value.null ["node", "cli", "other"] rfl rfl
    exact ⟨cntx, hp, by rw [hm]; rfl⟩

/-- Two commands sharing the literal name build, with distinct descriptions. -/
def cacC1dup : CAC :=
  { mkCAC "" with commands :=
      [declareCommand "build" "first" {}, declareCommand "build" "second" {}] }

/-- Counterexample to C1 as stated: matching does not stop at the first
registered command whose literal name equals the first positional token — with
two commands both named build, the SECOND registered one ends up bound. -/
theorem c1_matching_counterexample :
    (cacC1dup.parse Value.null ["node", "cli", "build"] false).map
        (fun cntx => cntx.matchedCommand.map (fun c => c.description)) =
      .ok (some "second") ∧ "second" ≠ "first" :=
  ⟨rfl, by decide⟩

/-! Result-field preservation through the matching stages. -/

theorem setParsedInfo_result (cntx : CacCntx) (p : ParsedArgv)
    (mc : Option Command) (mcn : Option String) :
    (setParsedInfo cntx p mc mcn).result = cntx.result := by
  unfold setParsedInfo
  cases mc <;> cases mcn <;> dsimp only <;> try rfl
  all_goals split <;> rfl

theorem matchLoop_result (cac : CAC) (argv2 : List String)
    (cmds : List Command) : ∀ st : CacCntx × Bool,
    ((matchLoop cac argv2 cmds st).1).result = st.1.result := by
  induction cmds with
  | nil => intro st; rfl
  | cons c rest ih =>
    intro st
    unfold matchLoop
    split
    · rw [ih]; exact setParsedInfo_result _ _ _ _
    · exact ih st

theorem defaultLoop_result (cac : CAC) (argv2 : List String)
    (cmds : List Command) : ∀ st : CacCntx × Bool,
    ((defaultLoop cac argv2 cmds st).1).result = st.1.result := by
  induction cmds with
  | nil => intro st; rfl
  | cons c rest ih =>
    intro st
    unfold defaultLoop
    split
    · rw [ih]; exact setParsedInfo_result _ _ _ _
    · exact ih st

theorem parseFinish_result (cac : CAC) (argv2 : List String)
    (st : CacCntx × Bool) : (parseFinish cac argv2 st).result = st.1.result := by
  unfold parseFinish
  split
  · exact setParsedInfo_result _ _ _ _
  · rfl

theorem parseDef_result (cac : CAC) (argv2 : List String)
    (st : CacCntx × Bool) : ((parseDef cac argv2 st)).1.result = st.1.result := by
  unfold parseDef
  split
  · exact defaultLoop_result _ _ _ _
  · rfl

theorem parseMatched_result (cac : CAC) (env : Value) (argv : List String) :
    (cac.parseMatched env argv).result = none := by
  unfold CAC.parseMatched
  rw [parseFinish_result, parseDef_result, matchLoop_result]
  rfl

/-- After a short-circuit cleared the context and the run flag, the version
step keeps it cleared and never re-enables dispatch. -/
theorem versionStep_cleared (cac : CAC) (cntx : CacCntx)
    (hmc : cntx.matchedCommand = none) (hmn : cntx.matchedCommandName = none) :
    ∃ cntx2 : CacCntx, versionStep cac (cntx, false) = (cntx2, false) ∧
      cntx2.matchedCommand = none ∧ cntx2.matchedCommandName = none ∧
      cntx2.result = cntx.result := by
  unfold versionStep
  split
  · exact ⟨_, rfl, rfl, rfl, rfl⟩
  · exact ⟨cntx, rfl, hmc, hmn, rfl⟩

/-- C5 (amended): when the help flag is set with the help feature enabled,
dispatch is skipped and the matched command cleared regardless of any match;
the version short-circuit does the same, but ONLY when no command name was
matched (the source's version branch requires matchedCommandName to be null,
so a parse that bound a named command still dispatches even with the version
flag set). -/
theorem c5_short_circuit (cac : CAC) (env : Value) (argv : List String)
    (run : Bool)
    (h : (jsTruthy (lookupA (cac.parseMatched env argv).options "help") &&
        cac.showHelpOnExit) = true ∨
      ((jsTruthy (lookupA (cac.parseMatched env argv).options "version") &&
          cac.showVersionOnExit) = true ∧
        (cac.parseMatched env argv).matchedCommandName = none)) :
    ∃ cntx : CacCntx, cac.parse env argv run = .ok cntx ∧
      cntx.matchedCommand = none ∧ cntx.matchedCommandName = none ∧
      cntx.result = none := by
  unfold CAC.parse
  by_cases hh : (jsTruthy (lookupA (cac.parseMatched env argv).options "help")
      && cac.showHelpOnExit) = true
  · rw [show helpStep cac run (cac.parseMatched env argv) =
        ({ cac.parseMatched env argv with
            matchedCommand := none, matchedCommandName := none }, false) by
      unfold helpStep; rw [if_pos hh]]
    obtain ⟨cntx2, hv, hmc, hmn, hres⟩ := versionStep_cleared cac
      { cac.parseMatched env argv with
          matchedCommand := none, matchedCommandName := none } rfl rfl
    rw [hv]
    refine ⟨cntx2, ?_, hmc, hmn, ?_⟩
    · unfold runStep
      rfl
    · rw [hres]
      exact parseMatched_result cac env argv
  · rcases h with h | ⟨hv, hn⟩
    · exact absurd h hh
    · rw [show helpStep cac run (cac.parseMatched env argv) =
          (cac.parseMatched env argv, run) by
        unfold helpStep; rw [if_neg hh]]
      rw [show versionStep cac (cac.parseMatched env argv, run) =
          ({ cac.parseMatched env argv with
              matchedCommand := none, matchedCommandName := none }, false) by
        unfold versionStep
        rw [if_pos]
        rw [hv, hn]
        rfl]
      refine ⟨{ cac.parseMatched env argv with
          matchedCommand := none, matchedCommandName := none }, ?_, rfl, rfl, ?_⟩
      · unfold runStep
        rfl
      · exact parseMatched_result cac env argv

/-- The registry of the C5 example: a build command with a handler, and the
version feature enabled. -/
def cacC5 : CAC :=
  CAC.version
    { mkCAC "" with commands :=
        [{ declareCommand "build" "B" {} with
            commandAction := some (fun _ => .str "ran") }] }

/-- Witness for C5 (amended): with no command matched, a set version flag with
the feature enabled clears the context and skips dispatch. -/
theorem c5_short_circuit_witness :
    ∃ cntx : CacCntx,
      cacC5.parse Value.null ["node", "cli", "--version"] true = .ok cntx ∧
        cntx.matchedCommand = none ∧ cntx.matchedCommandName = none ∧
        cntx.result = none :=
  c5_short_circuit cacC5 Value.null ["node", "cli", "--version"] true
    (Or.inr ⟨rfl, rfl⟩)

/-- Counterexample to C5 as stated: a set version flag with the version
feature enabled does NOT skip dispatch when a named command matched — the
handler runs and the matched command name stays bound. -/
theorem c5_short_circuit_counterexample :
    (cacC5.parse Value.null ["node", "cli", "build", "--version"] true).map
        (fun cntx => (cntx.matchedCommandName, cntx.result.isSome)) =
      .ok (some "build", true) :=
  rfl

/-! Environment-field preservation through the matching stages. -/

theorem setParsedInfo_env (cntx : CacCntx) (p : ParsedArgv)
    (mc : Option Command) (mcn : Option String) :
    (setParsedInfo cntx p mc mcn).env = cntx.env := by
  unfold setParsedInfo
  cases mc <;> cases mcn <;> dsimp only <;> try rfl
  all_goals split <;> rfl

theorem matchLoop_env (cac : CAC) (argv2 : List String)
    (cmds : List Command) : ∀ st : CacCntx × Bool,
    ((matchLoop cac argv2 cmds st).1).env = st.1.env := by
  induction cmds with
  | nil => intro st; rfl
  | cons c rest ih =>
    intro st
    unfold matchLoop
    split
    · rw [ih]; exact setParsedInfo_env _ _ _ _
    · exact ih st

theorem defaultLoop_env (cac : CAC) (argv2 : List String)
    (cmds : List Command) : ∀ st : CacCntx × Bool,
    ((defaultLoop cac argv2 cmds st).1).env = st.1.env := by
  induction cmds with
  | nil => intro st; rfl
  | cons c rest ih =>
    intro st
    unfold defaultLoop
    split
    · rw [ih]; exact setParsedInfo_env _ _ _ _
    · exact ih st

theorem parseMatched_env (cac : CAC) (env : Value) (argv : List String) :
    (cac.parseMatched env argv).env = env := by
  unfold CAC.parseMatched
  have h1 : ∀ st : CacCntx × Bool, (parseFinish cac (argv.drop 2) st).env =
      st.1.env := by
    intro st
    unfold parseFinish
    split
    · exact setParsedInfo_env _ _ _ _
    · rfl
  have h2 : ∀ st : CacCntx × Bool, (parseDef cac (argv.drop 2) st).1.env =
      st.1.env := by
    intro st
    unfold parseDef
    split
    · exact defaultLoop_env _ _ _ _
    · rfl
  rw [h1, h2, matchLoop_env]
  rfl

theorem helpStep_not_triggered (cac : CAC) (run : Bool) (cntx : CacCntx)
    (h : (jsTruthy (lookupA cntx.options "help") && cac.showHelpOnExit)
      = false) : helpStep cac run cntx = (cntx, run) := by
  unfold helpStep
  simp [h]

theorem versionStep_not_triggered (cac : CAC) (st : CacCntx × Bool)
    (h : (jsTruthy (lookupA st.1.options "version") && cac.showVersionOnExit
      && st.1.matchedCommandName.isNone) = false) : versionStep cac st = st := by
  unfold versionStep
  simp [h]

/-- Element lookup in the dispatch expansion: each descriptor at offset i
takes the positional token at the shifted index, a variadic one takes the
remaining tokens from its shifted index onward. -/
theorem expandArgsFrom_get (args : List String) :
    ∀ (descs : List CmdArg) (i0 i : Nat) (d : CmdArg), descs.get? i = some d →
    (expandArgsFrom args i0 descs).get? i = some
      (if d.variadic then Value.arr ((args.drop (i0 + i)).map Value.str)
       else
        match args.get? (i0 + i) with
        | some s => Value.str s
        | none => Value.undef) := by
  intro descs
  induction descs with
  | nil =>
    intro i0 i d h
    simp at h
  | cons a rest ih =>
    intro i0 i d h
    cases i with
    | zero =>
      simp only [List.get?] at h
      cases h
      simp [expandArgsFrom]
    | succ n =>
      simp only [List.get?] at h
      have h2 := ih (i0 + 1) n d h
      simp only [expandArgsFrom, List.get?]
      rw [show i0 + (n + 1) = (i0 + 1) + n by omega]
      exact h2

/-- The dispatch expansion element-wise: descriptor i takes positional token
i (undefined if absent), a variadic descriptor takes the remaining tokens
from index i onward. -/
theorem expandArgs_get (descs : List CmdArg) (args : List String) (i : Nat)
    (d : CmdArg) (h : descs.get? i = some d) :
    (expandArgs descs args).get? i = some
      (if d.variadic then Value.arr ((args.drop i).map Value.str)
       else
        match args.get? i with
        | some s => Value.str s
        | none => Value.undef) := by
  have h2 := expandArgsFrom_get args descs 0 i d h
  simpa using h2

/-- C4: when a command with a handler matched, neither short-circuit fired and
all three validations pass, parse invokes the handler on the argument list
[env, positional expansion, options mapping] and stores its return value in
the context's result field; the expansion gives each non-variadic positional
the token at its own index (undefined when absent) and a variadic positional
all remaining tokens from its index onward. -/
theorem c4_dispatch (cac : CAC) (env : Value) (argv : List String)
    (c : Command) (f : List Value → Value)
    (hh : (jsTruthy (lookupA (cac.parseMatched env argv).options "help") &&
      cac.showHelpOnExit) = false)
    (hv : (jsTruthy (lookupA (cac.parseMatched env argv).options "version") &&
      cac.showVersionOnExit &&
      (cac.parseMatched env argv).matchedCommandName.isNone) = false)
    (hm : (cac.parseMatched env argv).matchedCommand = some c)
    (ha : c.commandAction = some f)
    (h5 : checkUnknownOptions cac c (cac.parseMatched env argv) = .ok ())
    (h6 : checkOptionValue cac c (cac.parseMatched env argv) = .ok ())
    (h7 : checkRequiredArgs c (cac.parseMatched env argv) = .ok ()) :
    cac.parse env argv true =
      .ok { cac.parseMatched env argv with
        result := some (f ([env] ++
          expandArgs c.args (cac.parseMatched env argv).args ++
          [Value.obj (cac.parseMatched env argv).options])) } ∧
    (∀ (i : Nat) (d : CmdArg), c.args.get? i = some d →
      (expandArgs c.args (cac.parseMatched env argv).args).get? i = some
        (if d.variadic then
          Value.arr (((cac.parseMatched env argv).args.drop i).map Value.str)
         else
          match (cac.parseMatched env argv).args.get? i with
          | some s => Value.str s
          | none => Value.undef)) := by
  constructor
  · unfold CAC.parse
    rw [helpStep_not_triggered cac true (cac.parseMatched env argv) hh,
      versionStep_not_triggered cac _ hv]
    unfold runStep
    rw [if_pos rfl]
    have hrun : cac.runMatchedCommand (cac.parseMatched env argv) =
        .ok (f ([env] ++
          expandArgs c.args (cac.parseMatched env argv).args ++
          [Value.obj (cac.parseMatched env argv).options])) := by
      unfold CAC.runMatchedCommand
      rw [hm]
      dsimp only
      rw [ha]
      dsimp only
      rw [h5]
      dsimp only
      rw [h6]
      dsimp only
      rw [h7]
      dsimp only
      rw [parseMatched_env]
    rw [hrun]
  · intro i d h
    exact expandArgs_get c.args (cac.parseMatched env argv).args i d h

/-- The copy command of the C4 witness: one required positional and a
variadic tail, echoing its dispatch arguments. -/
def cacC4cmd : Command :=
  { declareCommand "copy <src> [files...]" "C" {} with
      commandAction := some (fun args => Value.arr args) }

/-- The registry of the C4 witness. -/
def cacC4 : CAC := { mkCAC "" with commands := [cacC4cmd] }

/-- Witness for C4: dispatching copy a b c calls the handler with the
environment, the single positional a, the variadic tail [b, c] and the
options mapping, and stores the result. -/
theorem c4_dispatch_witness :
    (cacC4.parse Value.null ["node", "cli", "copy", "a", "b", "c"] true).map
        (fun cntx => cntx.result) =
      .ok (some (.arr [Value.null, .str "a", .arr [.str "b", .str "c"],
        .obj [("--", .arr [])]])) := by
  have h := (c4_dispatch cacC4 Value.null ["node", "cli", "copy", "a", "b", "c"]
    cacC4cmd (fun args => Value.arr args) rfl rfl rfl rfl rfl rfl rfl).1
  rw [h]
  rfl

/-- C6: when a command with a handler matched, the unknown-option check was
not disabled for it, and the final options mapping carries a key other than
the reserved passthrough key that is not declared in the global or command
scope, parse raises an Unknown-Option error — the handler is never invoked
and the error propagates to the caller. -/
theorem c6_unknown_option (cac : CAC) (env : Value) (argv : List String)
    (c : Command) (k : String)
    (hh : (jsTruthy (lookupA (cac.parseMatched env argv).options "help") &&
      cac.showHelpOnExit) = false)
    (hv : (jsTruthy (lookupA (cac.parseMatched env argv).options "version") &&
      cac.showVersionOnExit &&
      (cac.parseMatched env argv).matchedCommandName.isNone) = false)
    (hm : (cac.parseMatched env argv).matchedCommand = some c)
    (ha : c.commandAction.isSome = true)
    (hd : c.config.allowUnknownOptions = false)
    (hk : k ∈ (cac.parseMatched env argv).options.map (fun kv => kv.1))
    (hk1 : k ≠ "--")
    (hk2 : (declaredNames cac c).contains k = false) :
    ∃ k2 : String, cac.parse env argv true = .error (.unknownOption k2) := by
  have hfind : ((cac.parseMatched env argv).options.find? (fun kv =>
      kv.1 != "--" && !(declaredNames cac c).contains kv.1)).isSome = true := by
    rw [List.find?_isSome]
    obtain ⟨kv, hkv, hkeq⟩ := List.mem_map.mp hk
    refine ⟨kv, hkv, ?_⟩
    rw [hkeq]
    have hk2m : k ∉ declaredNames cac c := by simpa using hk2
    simp [hk1, hk2m]
  obtain ⟨kv2, hfind2⟩ := Option.isSome_iff_exists.mp hfind
  obtain ⟨f, hf⟩ := Option.isSome_iff_exists.mp ha
  have hcheck : checkUnknownOptions cac c (cac.parseMatched env argv) =
      .error (.unknownOption kv2.1) := by
    unfold checkUnknownOptions
    rw [if_neg (by simp [hd]), hfind2]
  refine ⟨kv2.1, ?_⟩
  unfold CAC.parse
  rw [helpStep_not_triggered cac true (cac.parseMatched env argv) hh,
    versionStep_not_triggered cac _ hv]
  unfold runStep
  rw [if_pos rfl]
  have hrun : cac.runMatchedCommand (cac.parseMatched env argv) =
      .error (.unknownOption kv2.1) := by
    unfold CAC.runMatchedCommand
    rw [hm]
    dsimp only
    rw [hf]
    dsimp only
    rw [hcheck]
  rw [hrun]

/-- The registry of the C6 witness: a build command with a handler and no
declared options anywhere. -/
def cacC6 : CAC :=
  { mkCAC "" with commands :=
      [{ declareCommand "build" "B" {} with
          commandAction := some (fun _ => .str "ran") }] }

/-- Witness for C6: an undeclared flag on a matched command makes parse
return an Unknown-Option error instead of dispatching. -/
theorem c6_unknown_option_witness :
    ∃ k2 : String,
      cacC6.parse Value.null ["node", "cli", "build", "--foo"] true =
        .error (.unknownOption k2) := by
  refine c6_unknown_option cacC6 Value.null ["node", "cli", "build", "--foo"]
    (cacC6.commands.headD (declareCommand "" "" {})) "foo"
    rfl rfl rfl rfl rfl ?_ (by decide) rfl
  decide

/-! Preservation of option-map entries through the assignment pipeline. -/

theorem setDotProp_isSome (p : List String) (m : List (String × Value))
    (v : Value) (n : String) (h : (lookupA m n).isSome = true) :
    (lookupA (setDotProp m p v) n).isSome = true := by
  match p with
  | [] => exact h
  | [k] => exact lookupA_setAssoc_isSome m k n v h
  | k :: k2 :: r => exact lookupA_setAssoc_isSome m k n _ h

theorem seedNames_lookup_ne (names : List String) (d : Value) (n : String)
    (h : n ∉ names) : ∀ m, lookupA (seedNames names d m) n = lookupA m n := by
  induction names with
  | nil => intro m; rfl
  | cons x rest ih =>
    intro m
    unfold seedNames
    rw [ih (fun hr => h (List.mem_cons_of_mem _ hr)),
      lookupA_setAssoc_ne _ _ _ _
        (fun he => h (by rw [he]; exact List.mem_cons_self _ _))]

theorem seedNames_isSome (names : List String) (d : Value) (n : String) :
    ∀ m, (lookupA m n).isSome = true →
      (lookupA (seedNames names d m) n).isSome = true := by
  induction names with
  | nil => intro m h; exact h
  | cons x rest ih =>
    intro m h
    exact ih _ (lookupA_setAssoc_isSome m x n d h)

theorem seedDefaults_lookup_ne (ig : Bool) (opts : List CliOption) (n : String)
    (h : ∀ o ∈ opts, n ∉ o.names) :
    ∀ m, lookupA (seedDefaults ig opts m) n = lookupA m n := by
  induction opts with
  | nil => intro m; rfl
  | cons o rest ih =>
    intro m
    unfold seedDefaults
    rw [ih (fun o2 ho2 => h o2 (List.mem_cons_of_mem _ ho2))]
    split
    · exact seedNames_lookup_ne _ _ _ (h o (List.mem_cons_self _ _)) m
    · rfl

theorem seedDefaults_isSome (ig : Bool) (opts : List CliOption) (n : String) :
    ∀ m, (lookupA m n).isSome = true →
      (lookupA (seedDefaults ig opts m) n).isSome = true := by
  induction opts with
  | nil => intro m h; exact h
  | cons o rest ih =>
    intro m h
    unfold seedDefaults
    apply ih
    split
    · exact seedNames_isSome _ _ _ m h
    · exact h

theorem setByTypeGo_cons (m : List (String × Value)) (t : Transform)
    (rest : List Transform) : setByTypeGo m (t :: rest) =
      ((setByTypeGo (setByTypeStep m t).1 rest).1,
        (setByTypeStep m t).2 :: (setByTypeGo (setByTypeStep m t).1 rest).2) :=
  rfl

theorem setByTypeStep_ne (m : List (String × Value)) (t : Transform)
    (K : String) (ht : t.name ≠ K) :
    lookupA (setByTypeStep m t).1 K = lookupA m K ∧
    (setByTypeStep m t).2.name = t.name := by
  unfold setByTypeStep
  split
  · split
    case h_1 =>
      exact ⟨lookupA_setAssoc_ne _ _ _ _ (fun he => ht he.symm), rfl⟩
    case h_2 => exact ⟨rfl, rfl⟩
  · exact ⟨rfl, rfl⟩

theorem setByTypeStep_isSome (m : List (String × Value)) (t : Transform)
    (n : String) (h : (lookupA m n).isSome = true) :
    (lookupA (setByTypeStep m t).1 n).isSome = true := by
  unfold setByTypeStep
  split
  · split
    case h_1 => exact lookupA_setAssoc_isSome _ _ _ _ h
    case h_2 => exact h
  · exact h

theorem setByTypeStep_entry_keep (m : List (String × Value)) (K : String)
    (f : Value → Value) (hm : lookupA m K = none) :
    setByTypeStep m ⟨K, true, f⟩ = (m, ⟨K, true, f⟩) := by
  unfold setByTypeStep
  dsimp only
  rw [hm]
  rfl

theorem setByTypeStep_entry_fire (m : List (String × Value)) (K : String)
    (f : Value → Value) (xs : List Value)
    (hm : lookupA m K = some (.arr xs)) :
    setByTypeStep m ⟨K, true, f⟩ =
      (setAssoc m K (.arr (xs.map f)), ⟨K, false, f⟩) := by
  unfold setByTypeStep
  dsimp only
  rw [hm]
  rfl

theorem setByTypeStep_entry_dead (m : List (String × Value)) (K : String)
    (f : Value → Value) : setByTypeStep m ⟨K, false, f⟩ = (m, ⟨K, false, f⟩) :=
  rfl

theorem setByTypeGo_lookup_ne (n : String) : ∀ (tr : List Transform)
    (m : List (String × Value)), (∀ t ∈ tr, t.name ≠ n) →
    lookupA (setByTypeGo m tr).1 n = lookupA m n := by
  intro tr
  induction tr with
  | nil => intro m h; rfl
  | cons t rest ih =>
    intro m h
    rw [setByTypeGo_cons]
    dsimp only
    rw [ih _ (fun t2 h2 => h t2 (List.mem_cons_of_mem _ h2))]
    exact (setByTypeStep_ne m t n (h t (List.mem_cons_self _ _))).1

theorem setByTypeGo_isSome (n : String) : ∀ (tr : List Transform)
    (m : List (String × Value)), (lookupA m n).isSome = true →
    (lookupA (setByTypeGo m tr).1 n).isSome = true := by
  intro tr
  induction tr with
  | nil => intro m h; exact h
  | cons t rest ih =>
    intro m h
    rw [setByTypeGo_cons]
    exact ih _ (setByTypeStep_isSome m t n h)

theorem setByTypeGo_names (n : String) : ∀ (tr : List Transform)
    (m : List (String × Value)), (∀ t ∈ tr, t.name ≠ n) →
    ∀ t2 ∈ (setByTypeGo m tr).2, t2.name ≠ n := by
  intro tr
  induction tr with
  | nil => intro m h t2 h2; exact absurd h2 (List.not_mem_nil t2)
  | cons t rest ih =>
    intro m h t2 h2
    rw [setByTypeGo_cons] at h2
    dsimp only at h2
    rcases List.mem_cons.mp h2 with he | he
    · rw [he, (setByTypeStep_ne m t n (h t (List.mem_cons_self _ _))).2]
      exact h t (List.mem_cons_self _ _)
    · exact ih _ (fun t3 h3 => h t3 (List.mem_cons_of_mem _ h3)) t2 he

/-- A dot-path head different from a key never touches that key. -/
theorem strSplit_head_ne (k n : String) (h : firstSeg k ≠ n) :
    ∀ s ∈ (strSplitOnC '.' k).head?, s ≠ n := by
  intro s hs
  unfold firstSeg at h
  cases hsp : strSplitOnC '.' k with
  | nil => rw [hsp] at hs; exact absurd hs (by simp)
  | cons seg rest =>
    rw [hsp] at hs
    simp at hs
    rw [hsp] at h
    subst hs
    simpa using h

theorem assignKeys_lookup_ne (n : String) : ∀ (kvs : List (String × Value))
    (m : List (String × Value)) (tr : List Transform),
    (∀ kv ∈ kvs, firstSeg kv.1 ≠ n) → (∀ t ∈ tr, t.name ≠ n) →
    lookupA (assignKeys kvs m tr).1 n = lookupA m n := by
  intro kvs
  induction kvs with
  | nil => intro m tr _ _; rfl
  | cons kv rest ih =>
    intro m tr hk ht
    unfold assignKeys
    rw [ih _ _ (fun kv2 h2 => hk kv2 (List.mem_cons_of_mem _ h2))
        (setByTypeGo_names n tr _ ht),
      setByTypeGo_lookup_ne n tr _ ht,
      lookupA_setDotProp_ne _ _ _ _
        (strSplit_head_ne kv.1 n (hk kv (List.mem_cons_self _ _)))]

theorem assignKeys_isSome (n : String) : ∀ (kvs : List (String × Value))
    (m : List (String × Value)) (tr : List Transform),
    (lookupA m n).isSome = true →
    (lookupA (assignKeys kvs m tr).1 n).isSome = true := by
  intro kvs
  induction kvs with
  | nil => intro m tr h; exact h
  | cons kv rest ih =>
    intro m tr h
    unfold assignKeys
    exact ih _ _ (setByTypeGo_isSome n tr _ (setDotProp_isSome _ _ _ _ h))

/-- Every transform entry's name is the canonical name of some declared
option with an array coercion (or came from the initial table). -/
theorem mkTransforms_names : ∀ (opts : List CliOption) (tr0 : List Transform)
    (t : Transform), t ∈ mkTransforms opts tr0 →
    t ∈ tr0 ∨ ∃ o ∈ opts, t.name = o.name ∧
      (o.config.typeArray).isSome = true := by
  intro opts
  induction opts with
  | nil => intro tr0 t h; exact Or.inl h
  | cons o rest ih =>
    intro tr0 t h
    unfold mkTransforms at h
    rcases ih _ t h with h2 | ⟨o2, ho2, he, hs⟩
    · split at h2
      case h_1 f heq =>
        split at h2
        · exact Or.inl h2
        · rcases List.mem_append.mp h2 with h3 | h3
          · exact Or.inl h3
          · simp at h3
            exact Or.inr ⟨o, List.mem_cons_self _ _, by rw [h3],
              by rw [heq]; rfl⟩
      case h_2 => exact Or.inl h2
    · exact Or.inr ⟨o2, List.mem_cons_of_mem _ ho2, he, hs⟩

/-! The tokenizer never fabricates positional tokens: every positional in its
output comes from the accumulator or the input. -/

theorem setFlag_args (opts : List CliOption) (acc : MriAcc) (k : String)
    (v : Value) : (setFlag opts acc k v).args = acc.args := by
  unfold setFlag
  split
  · split <;> rfl
  · rfl

theorem foldSetFlag_args (opts : List CliOption) : ∀ (cs : List Char)
    (acc : MriAcc),
    (cs.foldl (fun a c => setFlag opts a (String.mk [c]) (.bool true)) acc).args
      = acc.args := by
  intro cs
  induction cs with
  | nil => intro acc; rfl
  | cons c rest ih =>
    intro acc
    rw [List.foldl_cons, ih, setFlag_args]

theorem tokOne_args_disj (opts : List CliOption) (acc : MriAcc) (tok : String) :
    (tokOne opts acc tok).1.args = acc.args ∨
    (tokOne opts acc tok).1.args = acc.args ++ [tok] := by
  unfold tokOne
  dsimp only
  split
  · split
    · simp [setFlag_args]
    · split
      · simp [setFlag_args]
      · split
        · simp [setFlag_args]
        · simp
  · split
    · split
      · split
        · simp [setFlag_args]
        · simp
      · simp [foldSetFlag_args]
    · simp

theorem tokenizeGo_args_mem (opts : List CliOption) : ∀ (tokens : List String)
    (acc : MriAcc) (pending : Option String) (a : String),
    a ∈ (tokenizeGo opts tokens acc pending).args →
    a ∈ acc.args ∨ a ∈ tokens := by
  intro tokens
  induction tokens with
  | nil =>
    intro acc pending a h
    unfold tokenizeGo at h
    left
    split at h
    · rw [setFlag_args] at h; exact h
    · exact h
  | cons tok rest ih =>
    intro acc pending a h
    unfold tokenizeGo at h
    split at h
    · -- a pending flag was waiting for its value
      split at h
      · -- next token looks like a flag: flush and process the token
        rcases ih _ _ a h with h2 | h2
        · rcases tokOne_args_disj opts (setFlag opts acc _ (.bool true)) tok
            with hd | hd
          · rw [hd, setFlag_args] at h2
            exact Or.inl h2
          · rw [hd, setFlag_args] at h2
            rcases List.mem_append.mp h2 with h3 | h3
            · exact Or.inl h3
            · simp at h3
              exact Or.inr (by rw [h3]; exact List.mem_cons_self _ _)
        · exact Or.inr (List.mem_cons_of_mem _ h2)
      · -- the token is consumed as the pending flag's value
        rcases ih _ _ a h with h2 | h2
        · rw [setFlag_args] at h2
          exact Or.inl h2
        · exact Or.inr (List.mem_cons_of_mem _ h2)
    · -- no pending flag: process the token
      rcases ih _ _ a h with h2 | h2
      · rcases tokOne_args_disj opts acc tok with hd | hd
        · rw [hd] at h2
          exact Or.inl h2
        · rw [hd] at h2
          rcases List.mem_append.mp h2 with h3 | h3
          · exact Or.inl h3
          · simp at h3
            exact Or.inr (by rw [h3]; exact List.mem_cons_self _ _)
      · exact Or.inr (List.mem_cons_of_mem _ h2)

/-- The reserved passthrough entry, under the no-collision hypotheses: no
declared option carries the reserved name and no parsed key writes to it. -/
theorem mri_dd_value (cac : CAC) (argv : List String) (cmd : Option Command)
    (hopts : ∀ o ∈ cliOptionsOf cac cmd, "--" ∉ o.names ∧ o.name ≠ "--")
    (hkeys : ∀ kv ∈ parsedOptsOf cac argv cmd, firstSeg kv.1 ≠ "--") :
    lookupA (cac.mri argv cmd).options "--" =
      some (.arr ((tailDD argv).map .str)) := by
  unfold CAC.mri
  dsimp only
  rw [assignKeys_lookup_ne "--" _ _ _ hkeys ?_,
    seedDefaults_lookup_ne _ _ _ (fun o ho => (hopts o ho).1)]
  · rfl
  · intro t ht
    rcases mkTransforms_names _ _ t ht with h2 | ⟨o2, ho2, he, _⟩
    · exact absurd h2 (by simp)
    · rw [he]
      exact (hopts o2 ho2).2

/-- C2 (amended): the options mapping of every parse holds the reserved
passthrough key; every token after the first standalone double-dash appears
verbatim and in order under it, and the tokens before the double-dash are the
only ones classified as positionals — PROVIDED no declared option and no
parsed key carries the reserved name itself (a raw token of four dashes
produces the raw key consisting of two dashes, whose assignment overwrites the
reserved entry); with no standalone double-dash and no such collision the
reserved key holds the empty sequence. -/
theorem c2_passthrough (cac : CAC) (cmd : Option Command) (argv : List String) :
    (lookupA (cac.mri argv cmd).options "--").isSome = true ∧
    (∀ a ∈ (cac.mri argv cmd).args, a ∈ preDD argv) ∧
    ((∀ o ∈ cliOptionsOf cac cmd, "--" ∉ o.names ∧ o.name ≠ "--") →
      (∀ kv ∈ parsedOptsOf cac argv cmd, firstSeg kv.1 ≠ "--") →
      lookupA (cac.mri argv cmd).options "--" =
        some (.arr ((tailDD argv).map .str))) ∧
    (∀ i : Nat, ddIndex argv = some i →
      preDD argv = argv.take i ∧ tailDD argv = argv.drop (i + 1)) ∧
    (ddIndex argv = none → preDD argv = argv ∧ tailDD argv = []) := by
  refine ⟨?_, ?_, mri_dd_value cac argv cmd, ?_, ?_⟩
  · unfold CAC.mri
    dsimp only
    apply assignKeys_isSome
    apply seedDefaults_isSome
    simp [lookupA]
  · intro a h
    rcases tokenizeGo_args_mem _ _ _ _ a h with h2 | h2
    · exact absurd h2 (by simp)
    · exact h2
  · intro i h
    unfold preDD tailDD
    rw [h]
    exact ⟨rfl, rfl⟩
  · intro h
    unfold preDD tailDD
    rw [h]
    exact ⟨rfl, rfl⟩

/-- Witness for C2: tokens after the standalone double-dash land verbatim
under the reserved key and are not classified as positionals. -/
theorem c2_passthrough_witness :
    lookupA ((mkCAC "").mri ["a", "--", "b", "--c"] none).options "--" =
      some (.arr [.str "b", .str "--c"]) ∧
    ∀ a ∈ ((mkCAC "").mri ["a", "--", "b", "--c"] none).args,
      a ∈ preDD ["a", "--", "b", "--c"] := by
  constructor
  · exact ((c2_passthrough (mkCAC "") none ["a", "--", "b", "--c"]).2.2.1
      (by decide) (by decide)).trans rfl
  · exact (c2_passthrough (mkCAC "") none ["a", "--", "b", "--c"]).2.1

/-- Counterexample to C2 as stated: a raw token of four dashes parses to the
raw key of two dashes, whose assignment overwrites the reserved entry, so with
no standalone double-dash present the reserved key holds true instead of the
empty sequence. -/
theorem c2_passthrough_counterexample :
    lookupA ((mkCAC "").mri ["----"] none).options "--" =
      some (.bool true) ∧
    ddIndex ["----"] = none ∧
    Value.bool true ≠ Value.arr [] :=
  ⟨rfl, rfl, fun h => Value.noConfusion h⟩

/-! Default seeding: the declared default lands under every alias. -/

theorem seedNames_lookup_mem (d : Value) (n : String) :
    ∀ (names : List String), n ∈ names →
    ∀ m, lookupA (seedNames names d m) n = some d := by
  intro names
  induction names with
  | nil => intro h; exact absurd h (List.not_mem_nil n)
  | cons x rest ih =>
    intro h m
    by_cases hr : n ∈ rest
    · exact ih hr _
    · have hx : n = x := by
        rcases List.mem_cons.mp h with he | he
        · exact he
        · exact absurd he hr
      unfold seedNames
      rw [seedNames_lookup_ne rest d n hr, hx, lookupA_setAssoc_self]

/-- Seeding skips an option entirely when it writes nothing at this name. -/
theorem seedDefaults_lookup_skip (ig : Bool) (n : String) :
    ∀ (opts : List CliOption),
    (∀ o ∈ opts, n ∉ o.names ∨
      ¬((!ig && (o.config.default?).isSome) = true)) →
    ∀ m, lookupA (seedDefaults ig opts m) n = lookupA m n := by
  intro opts
  induction opts with
  | nil => intro _ m; rfl
  | cons o rest ih =>
    intro h m
    unfold seedDefaults
    rw [ih (fun o2 h2 => h o2 (List.mem_cons_of_mem _ h2))]
    split
    case isTrue hw =>
      rcases h o (List.mem_cons_self _ _) with hn | hn
      · exact seedNames_lookup_ne _ _ _ hn m
      · exact absurd hw hn
    case isFalse => rfl

/-- Once the looked-up name holds the common default, seeding keeps it. -/
theorem seedDefaults_keep (n : String) (d : Value) :
    ∀ (opts : List CliOption),
    (∀ o ∈ opts, n ∈ o.names → o.config.default? = some d) →
    ∀ m, lookupA m n = some d →
      lookupA (seedDefaults false opts m) n = some d := by
  intro opts
  induction opts with
  | nil => intro _ m h; exact h
  | cons o rest ih =>
    intro h m hm
    unfold seedDefaults
    apply ih (fun o2 h2 => h o2 (List.mem_cons_of_mem _ h2))
    split
    case isTrue hw =>
      by_cases hn : n ∈ o.names
      · rw [h o (List.mem_cons_self _ _) hn]
        exact seedNames_lookup_mem d n o.names hn m
      · rw [seedNames_lookup_ne _ _ _ hn]
        exact hm
    case isFalse => exact hm

/-- Some declared option with a default writes this alias, and every option
that writes it writes the same default: seeding ends with that default. -/
theorem seedDefaults_write (n : String) (d : Value) :
    ∀ (opts : List CliOption),
    (∃ o ∈ opts, n ∈ o.names ∧ (o.config.default?).isSome = true) →
    (∀ o ∈ opts, n ∈ o.names → o.config.default? = some d) →
    ∀ m, lookupA (seedDefaults false opts m) n = some d := by
  intro opts
  induction opts with
  | nil =>
    intro hex _ m
    obtain ⟨o, ho, _⟩ := hex
    exact absurd ho (List.not_mem_nil o)
  | cons o rest ih =>
    intro hex hall m
    by_cases hw : n ∈ o.names ∧ (!false && (o.config.default?).isSome) = true
    · unfold seedDefaults
      rw [if_pos hw.2]
      apply seedDefaults_keep n d rest
        (fun o2 h2 => hall o2 (List.mem_cons_of_mem _ h2))
      rw [hall o (List.mem_cons_self _ _) hw.1]
      exact seedNames_lookup_mem d n o.names hw.1 m
    · have hex2 : ∃ o2 ∈ rest, n ∈ o2.names ∧
          (o2.config.default?).isSome = true := by
        obtain ⟨o2, ho2, hn2, hs2⟩ := hex
        rcases List.mem_cons.mp ho2 with he | he
        · subst he
          exact absurd ⟨hn2, by simp [hs2]⟩ hw
        · exact ⟨o2, he, hn2, hs2⟩
      unfold seedDefaults
      apply ih hex2 (fun o2 h2 => hall o2 (List.mem_cons_of_mem _ h2))

/-! The assignment loop writing a single dot-free key. -/

theorem assignKeys_append : ∀ (xs ys : List (String × Value))
    (m : List (String × Value)) (tr : List Transform),
    assignKeys (xs ++ ys) m tr =
      assignKeys ys (assignKeys xs m tr).1 (assignKeys xs m tr).2 := by
  intro xs
  induction xs with
  | nil => intro ys m tr; rfl
  | cons kv rest ih =>
    intro ys m tr
    have h1 : assignKeys ((kv :: rest) ++ ys) m tr =
        assignKeys (rest ++ ys)
          (setByTypeGo (setDotProp m (strSplitOnC '.' kv.1) kv.2) tr).1
          (setByTypeGo (setDotProp m (strSplitOnC '.' kv.1) kv.2) tr).2 := rfl
    have h2 : assignKeys (kv :: rest) m tr =
        assignKeys rest
          (setByTypeGo (setDotProp m (strSplitOnC '.' kv.1) kv.2) tr).1
          (setByTypeGo (setDotProp m (strSplitOnC '.' kv.1) kv.2) tr).2 := rfl
    rw [h1, ih, h2]

/-- Writing a dot-free key whose name no transform carries: the parsed value
is the final value, whatever was there before. -/
theorem assignKeys_write (n : String) (v : Value)
    (hsp : strSplitOnC '.' n = [n]) : ∀ (pre post : List (String × Value))
    (m : List (String × Value)) (tr : List Transform),
    (∀ kv ∈ pre ++ post, firstSeg kv.1 ≠ n) → (∀ t ∈ tr, t.name ≠ n) →
    lookupA (assignKeys (pre ++ (n, v) :: post) m tr).1 n = some v := by
  intro pre
  induction pre with
  | nil =>
    intro post m tr hk ht
    rw [List.nil_append]
    unfold assignKeys
    rw [assignKeys_lookup_ne n post _ _ (fun kv h2 => hk kv h2)
        (setByTypeGo_names n tr _ ht),
      setByTypeGo_lookup_ne n tr _ ht]
    dsimp only
    rw [hsp]
    exact lookupA_setAssoc_self m n v
  | cons kv pre2 ih =>
    intro post m tr hk ht
    rw [List.cons_append]
    unfold assignKeys
    exact ih post _ _ (fun kv2 h2 => hk kv2 (List.mem_cons_of_mem _ h2))
      (setByTypeGo_names n tr _ ht)

/-- No transform of this parse carries the given name, when every declared
option with an array coercion has a different canonical name. -/
theorem mkTransforms_ne (opts : List CliOption) (n : String)
    (h : ∀ o ∈ opts, (o.config.typeArray).isSome = true → o.name ≠ n) :
    ∀ t ∈ mkTransforms opts [], t.name ≠ n := by
  intro t ht
  rcases mkTransforms_names opts [] t ht with h2 | ⟨o2, ho2, he, hs⟩
  · exact absurd h2 (List.not_mem_nil t)
  · rw [he]
    exact h o2 ho2 hs

/-- C3 (amended): for a declared option with a default value and no
array-element coercion, with the effective ignoreOptionDefaultValue unset and
the option's aliases not shared with any other declared option, a parse where
no parsed key writes to any of the aliases yields exactly the declared
default under every alias; when a flag for the option's canonical name is
parsed, the parsed value overwrites and the default is never the final value.
(An option that does declare an array-element coercion has an array-valued
default wrapped through the coercion as soon as any key is parsed —
see the counterexample.) -/
theorem c3_defaults :
    (∀ (cac : CAC) (cmd : Option Command) (argv : List String)
      (o : CliOption) (d : Value),
      o ∈ cliOptionsOf cac cmd →
      o.config.default? = some d →
      ignoreDefaultEff cac cmd = false →
      o.config.typeArray = none →
      (∀ o2 ∈ cliOptionsOf cac cmd, o2 ≠ o →
        ∀ nm ∈ o.names, nm ∉ o2.names ∧ o2.name ≠ nm) →
      (∀ kv ∈ parsedOptsOf cac argv cmd, ∀ nm ∈ o.names,
        firstSeg kv.1 ≠ nm) →
      ∀ nm ∈ o.names,
        lookupA (cac.mri argv cmd).options nm = some d) ∧
    (∀ (cac : CAC) (cmd : Option Command) (argv : List String)
      (o : CliOption) (v : Value) (pre post : List (String × Value)),
      o ∈ cliOptionsOf cac cmd →
      o.config.typeArray = none →
      o.name ∈ o.names →
      strSplitOnC '.' o.name = [o.name] →
      (∀ o2 ∈ cliOptionsOf cac cmd, o2 ≠ o →
        ∀ nm ∈ o.names, nm ∉ o2.names ∧ o2.name ≠ nm) →
      parsedOptsOf cac argv cmd = pre ++ (o.name, v) :: post →
      (∀ kv ∈ pre ++ post, firstSeg kv.1 ≠ o.name) →
      lookupA (cac.mri argv cmd).options o.name = some v) := by
  constructor
  · intro cac cmd argv o d h1 h2 h3 h4 h5 h6 nm hnm
    unfold CAC.mri
    dsimp only
    rw [assignKeys_lookup_ne nm _ _ _ (fun kv hkv => h6 kv hkv nm hnm) ?_]
    · rw [h3]
      apply seedDefaults_write nm d (cliOptionsOf cac cmd)
        ⟨o, h1, hnm, by rw [h2]; rfl⟩
      intro o2 ho2 hnm2
      by_cases he : o2 = o
      · rw [he, h2]
      · exact absurd hnm2 ((h5 o2 ho2 he nm hnm).1)
    · apply mkTransforms_ne
      intro o2 ho2 hs2
      by_cases he : o2 = o
      · rw [he] at hs2
        rw [h4] at hs2
        exact absurd hs2 (by simp)
      · exact (h5 o2 ho2 he nm hnm).2
  · intro cac cmd argv o v pre post h1 h4 h9 hsp h5 h7 h8
    unfold CAC.mri
    dsimp only
    rw [h7]
    apply assignKeys_write o.name v hsp pre post _ _ h8
    apply mkTransforms_ne
    intro o2 ho2 hs2
    by_cases he : o2 = o
    · rw [he] at hs2
      rw [h4] at hs2
      exact absurd hs2 (by simp)
    · exact (h5 o2 ho2 he o.name h9).2

/-- The registry of the C3 witness: a global option with a declared default. -/
def cacC3 : CAC :=
  (mkCAC "").option "--type [type]" { default? := some (.str "node") }

/-- The declared option of the C3 witness. -/
def cacC3opt : CliOption :=
  declareOption "--type [type]" { default? := some (.str "node") }

/-- Witness for C3: with the flag absent the declared default is the final
value, and a supplied flag value overwrites it. -/
theorem c3_defaults_witness :
    lookupA (cacC3.mri [] none).options "type" = some (.str "node") ∧
    lookupA (cacC3.mri ["--type", "x"] none).options "type" =
      some (.str "x") := by
  constructor
  · refine c3_defaults.1 cacC3 none [] cacC3opt (.str "node")
      (List.mem_cons_self _ _) rfl rfl rfl ?_ ?_ "type" ?_
    · intro o2 ho2 hne
      exact absurd (List.mem_singleton.mp ho2) hne
    · intro kv hkv
      exact absurd hkv (by rw [show parsedOptsOf cacC3 [] none =
        ([] : List (String × Value)) from rfl]; exact List.not_mem_nil kv)
    · exact List.mem_cons_self _ _
  · refine c3_defaults.2 cacC3 none ["--type", "x"] cacC3opt (.str "x") [] []
      (List.mem_cons_self _ _) rfl (List.mem_cons_self _ _) rfl ?_ rfl ?_
    · intro o2 ho2 hne
      exact absurd (List.mem_singleton.mp ho2) hne
    · intro kv hkv
      exact absurd hkv (List.not_mem_nil kv)

/-- The registry of the C3 counterexample: an array-valued default together
with an array-element coercion. -/
def cacC3x : CAC :=
  (mkCAC "").option "--type [type]"
    { default? := some (.arr [.str "node"]), typeArray := some (fun _ => .str "X") }

/-- Counterexample to C3 as stated: for an option with both a default and an
array-element coercion, a parse in which the option's flag is absent but some
other key is parsed does NOT yield the declared default — the seeded default
is coerced element-wise. -/
theorem c3_defaults_counterexample :
    lookupA (cacC3x.mri ["--foo", "1"] none).options "type" =
      some (.arr [.str "X"]) ∧
    (cacC3x.globalCommand.options.map (fun o => o.config.default?)) =
      [some (.arr [.str "node"])] ∧
    Value.arr [.str "X"] ≠ Value.arr [.str "node"] := by
  refine ⟨rfl, rfl, ?_⟩
  intro h
  injection h with h1
  injection h1 with h2 h3
  injection h2 with h4
  exact absurd h4 (by decide)

/-! Tracking one pending transform entry through the transform step. -/

/-- A pending entry whose key is absent from the mapping survives the
transform step untouched, and the key stays absent. -/
theorem setByTypeGo_keep (K : String) (f : Value → Value) :
    ∀ (trA trB : List Transform) (m : List (String × Value)),
    (∀ t ∈ trA, t.name ≠ K) → (∀ t ∈ trB, t.name ≠ K) → lookupA m K = none →
    lookupA (setByTypeGo m (trA ++ ⟨K, true, f⟩ :: trB)).1 K = none ∧
    ∃ trA2 trB2, (setByTypeGo m (trA ++ ⟨K, true, f⟩ :: trB)).2 =
      trA2 ++ ⟨K, true, f⟩ :: trB2 ∧
      (∀ t ∈ trA2, t.name ≠ K) ∧ (∀ t ∈ trB2, t.name ≠ K) := by
  intro trA
  induction trA with
  | nil =>
    intro trB m hA hB hm
    rw [List.nil_append, setByTypeGo_cons, setByTypeStep_entry_keep m K f hm]
    dsimp only
    refine ⟨?_, [], (setByTypeGo m trB).2, rfl, by simp, ?_⟩
    · rw [setByTypeGo_lookup_ne K trB m hB]
      exact hm
    · exact setByTypeGo_names K trB m hB
  | cons t trA2 ih =>
    intro trB m hA hB hm
    have ht : t.name ≠ K := hA t (List.mem_cons_self _ _)
    have hA2 : ∀ t2 ∈ trA2, t2.name ≠ K :=
      fun t2 h2 => hA t2 (List.mem_cons_of_mem _ h2)
    rw [List.cons_append, setByTypeGo_cons]
    dsimp only
    have hstep := setByTypeStep_ne m t K ht
    obtain ⟨h1, trA3, trB3, h2, h3, h4⟩ :=
      ih trB (setByTypeStep m t).1 hA2 hB (hstep.1.trans hm)
    refine ⟨h1, (setByTypeStep m t).2 :: trA3, trB3, ?_, ?_, h4⟩
    · rw [h2, List.cons_append]
    · intro t3 h5
      rcases List.mem_cons.mp h5 with he | he
      · rw [he, hstep.2]; exact ht
      · exact h3 t3 he

/-- A pending entry whose key holds an array fires exactly once: the elements
are mapped through the coercion and the entry is re-emitted spent. -/
theorem setByTypeGo_fire (K : String) (f : Value → Value) :
    ∀ (trA trB : List Transform) (m : List (String × Value)) (xs : List Value),
    (∀ t ∈ trA, t.name ≠ K) → (∀ t ∈ trB, t.name ≠ K) →
    lookupA m K = some (.arr xs) →
    lookupA (setByTypeGo m (trA ++ ⟨K, true, f⟩ :: trB)).1 K =
      some (.arr (xs.map f)) ∧
    ∃ trA2 trB2, (setByTypeGo m (trA ++ ⟨K, true, f⟩ :: trB)).2 =
      trA2 ++ ⟨K, false, f⟩ :: trB2 ∧
      (∀ t ∈ trA2, t.name ≠ K) ∧ (∀ t ∈ trB2, t.name ≠ K) := by
  intro trA
  induction trA with
  | nil =>
    intro trB m xs hA hB hm
    rw [List.nil_append, setByTypeGo_cons,
      setByTypeStep_entry_fire m K f xs hm]
    dsimp only
    refine ⟨?_, [], _, rfl, by simp, ?_⟩
    · rw [setByTypeGo_lookup_ne K trB _ hB]
      exact lookupA_setAssoc_self m K _
    · exact setByTypeGo_names K trB _ hB
  | cons t trA2 ih =>
    intro trB m xs hA hB hm
    have ht : t.name ≠ K := hA t (List.mem_cons_self _ _)
    have hA2 : ∀ t2 ∈ trA2, t2.name ≠ K :=
      fun t2 h2 => hA t2 (List.mem_cons_of_mem _ h2)
    rw [List.cons_append, setByTypeGo_cons]
    dsimp only
    have hstep := setByTypeStep_ne m t K ht
    obtain ⟨h1, trA3, trB3, h2, h3, h4⟩ :=
      ih trB (setByTypeStep m t).1 xs hA2 hB (hstep.1.trans hm)
    refine ⟨h1, (setByTypeStep m t).2 :: trA3, trB3, ?_, ?_, h4⟩
    · rw [h2, List.cons_append]
    · intro t3 h5
      rcases List.mem_cons.mp h5 with he | he
      · rw [he, hstep.2]; exact ht
      · exact h3 t3 he

/-- The assignment loop before the coerced option's own key arrives: the
pending entry survives and the key stays absent. -/
theorem assignKeys_keepK (K : String) (f : Value → Value) :
    ∀ (kvs : List (String × Value)) (m : List (String × Value))
      (trA trB : List Transform),
    (∀ kv ∈ kvs, firstSeg kv.1 ≠ K) →
    (∀ t ∈ trA, t.name ≠ K) → (∀ t ∈ trB, t.name ≠ K) → lookupA m K = none →
    ∃ m2 trA2 trB2,
      assignKeys kvs m (trA ++ ⟨K, true, f⟩ :: trB) =
        (m2, trA2 ++ ⟨K, true, f⟩ :: trB2) ∧
      lookupA m2 K = none ∧
      (∀ t ∈ trA2, t.name ≠ K) ∧ (∀ t ∈ trB2, t.name ≠ K) := by
  intro kvs
  induction kvs with
  | nil =>
    intro m trA trB _ hA hB hm
    exact ⟨m, trA, trB, rfl, hm, hA, hB⟩
  | cons kv rest ih =>
    intro m trA trB hk hA hB hm
    have hcons : assignKeys (kv :: rest) m (trA ++ ⟨K, true, f⟩ :: trB) =
        assignKeys rest
          (setByTypeGo (setDotProp m (strSplitOnC '.' kv.1) kv.2)
            (trA ++ ⟨K, true, f⟩ :: trB)).1
          (setByTypeGo (setDotProp m (strSplitOnC '.' kv.1) kv.2)
            (trA ++ ⟨K, true, f⟩ :: trB)).2 := rfl
    have hm1 : lookupA (setDotProp m (strSplitOnC '.' kv.1) kv.2) K = none := by
      rw [lookupA_setDotProp_ne _ _ _ _
        (strSplit_head_ne kv.1 K (hk kv (List.mem_cons_self _ _)))]
      exact hm
    obtain ⟨h1, trA3, trB3, h2, h3, h4⟩ :=
      setByTypeGo_keep K f trA trB
        (setDotProp m (strSplitOnC '.' kv.1) kv.2) hA hB hm1
    rw [hcons, h2]
    exact ih _ trA3 trB3 (fun kv2 hv => hk kv2 (List.mem_cons_of_mem _ hv))
      h3 h4 h1

/-- A spent entry never fires again: the key's value survives the transform
step and the entry is re-emitted spent. -/
theorem setByTypeGo_dead (K : String) (f : Value → Value) :
    ∀ (trA trB : List Transform) (m : List (String × Value)),
    (∀ t ∈ trA, t.name ≠ K) → (∀ t ∈ trB, t.name ≠ K) →
    lookupA (setByTypeGo m (trA ++ ⟨K, false, f⟩ :: trB)).1 K = lookupA m K ∧
    ∃ trA2 trB2, (setByTypeGo m (trA ++ ⟨K, false, f⟩ :: trB)).2 =
      trA2 ++ ⟨K, false, f⟩ :: trB2 ∧
      (∀ t ∈ trA2, t.name ≠ K) ∧ (∀ t ∈ trB2, t.name ≠ K) := by
  intro trA
  induction trA with
  | nil =>
    intro trB m hA hB
    rw [List.nil_append, setByTypeGo_cons, setByTypeStep_entry_dead m K f]
    dsimp only
    refine ⟨?_, [], (setByTypeGo m trB).2, rfl, by simp, ?_⟩
    · exact setByTypeGo_lookup_ne K trB m hB
    · exact setByTypeGo_names K trB m hB
  | cons t trA2 ih =>
    intro trB m hA hB
    have ht : t.name ≠ K := hA t (List.mem_cons_self _ _)
    have hA2 : ∀ t2 ∈ trA2, t2.name ≠ K :=
      fun t2 h2 => hA t2 (List.mem_cons_of_mem _ h2)
    rw [List.cons_append, setByTypeGo_cons]
    dsimp only
    have hstep := setByTypeStep_ne m t K ht
    obtain ⟨h1, trA3, trB3, h2, h3, h4⟩ := ih trB (setByTypeStep m t).1 hA2 hB
    refine ⟨h1.trans hstep.1, (setByTypeStep m t).2 :: trA3, trB3, ?_, ?_, h4⟩
    · rw [h2, List.cons_append]
    · intro t3 h5
      rcases List.mem_cons.mp h5 with he | he
      · rw [he, hstep.2]; exact ht
      · exact h3 t3 he

/-- The assignment loop after the coerced option's entry is spent: the key's
final value is untouched. -/
theorem assignKeys_deadK (K : String) (f : Value → Value) :
    ∀ (kvs : List (String × Value)) (m : List (String × Value))
      (trA trB : List Transform),
    (∀ kv ∈ kvs, firstSeg kv.1 ≠ K) →
    (∀ t ∈ trA, t.name ≠ K) → (∀ t ∈ trB, t.name ≠ K) →
    lookupA (assignKeys kvs m (trA ++ ⟨K, false, f⟩ :: trB)).1 K =
      lookupA m K := by
  intro kvs
  induction kvs with
  | nil => intro m trA trB _ _ _; rfl
  | cons kv rest ih =>
    intro m trA trB hk hA hB
    have hcons : assignKeys (kv :: rest) m (trA ++ ⟨K, false, f⟩ :: trB) =
        assignKeys rest
          (setByTypeGo (setDotProp m (strSplitOnC '.' kv.1) kv.2)
            (trA ++ ⟨K, false, f⟩ :: trB)).1
          (setByTypeGo (setDotProp m (strSplitOnC '.' kv.1) kv.2)
            (trA ++ ⟨K, false, f⟩ :: trB)).2 := rfl
    obtain ⟨h1, trA3, trB3, h2, h3, h4⟩ :=
      setByTypeGo_dead K f trA trB
        (setDotProp m (strSplitOnC '.' kv.1) kv.2) hA hB
    rw [hcons, h2,
      ih _ trA3 trB3 (fun kv2 hv => hk kv2 (List.mem_cons_of_mem _ hv)) h3 h4,
      h1,
      lookupA_setDotProp_ne _ _ _ _
        (strSplit_head_ne kv.1 K (hk kv (List.mem_cons_self _ _)))]

/-- Adding further options to the transform table keeps an existing entry in
place: an option sharing its name finds it and is skipped, any other option
appends a fresh entry after it. -/
theorem mkTransforms_keep (K : String) :
    ∀ (opts : List CliOption) (trA : List Transform) (e : Transform)
      (trB : List Transform), e.name = K → (∀ t ∈ trB, t.name ≠ K) →
    ∃ trB2, mkTransforms opts (trA ++ e :: trB) = trA ++ e :: trB2 ∧
      (∀ t ∈ trB2, t.name ≠ K) := by
  intro opts
  induction opts with
  | nil =>
    intro trA e trB he hB
    exact ⟨trB, rfl, hB⟩
  | cons o2 rest ih =>
    intro trA e trB he hB
    unfold mkTransforms
    split
    case h_1 g heq =>
      by_cases hf : (((trA ++ e :: trB).find?
          (fun t => t.name == o2.name)).isSome) = true
      · rw [if_pos hf]
        exact ih trA e trB he hB
      · rw [if_neg hf]
        have hne : o2.name ≠ K := by
          intro hKe
          apply hf
          rw [List.find?_isSome]
          refine ⟨e, List.mem_append_right _ (List.mem_cons_self _ _), ?_⟩
          rw [he, hKe]
          exact beq_self_eq_true _
        have hsh : (trA ++ e :: trB) ++ [⟨o2.name, true, g⟩] =
            trA ++ e :: (trB ++ [⟨o2.name, true, g⟩]) := by
          rw [List.append_assoc]
          rfl
        rw [hsh]
        apply ih trA e _ he
        intro t ht
        rcases List.mem_append.mp ht with h3 | h3
        · exact hB t h3
        · simp at h3
          rw [h3]
          exact hne
    case h_2 => exact ih trA e trB he hB

/-- The transform table of a parse whose option set declares the coerced
option with a unique canonical name: a single pending entry for it, with no
other entry carrying its name. -/
theorem mkTransforms_split (o : CliOption) (f : Value → Value)
    (hf : o.config.typeArray = some f) :
    ∀ (opts : List CliOption) (tr0 : List Transform), o ∈ opts →
    (∀ o2 ∈ opts, o2 ≠ o → o2.name ≠ o.name) →
    (∀ t ∈ tr0, t.name ≠ o.name) →
    ∃ trA trB, mkTransforms opts tr0 = trA ++ ⟨o.name, true, f⟩ :: trB ∧
      (∀ t ∈ trA, t.name ≠ o.name) ∧ (∀ t ∈ trB, t.name ≠ o.name) := by
  intro opts
  induction opts with
  | nil =>
    intro tr0 hmem _ _
    exact absurd hmem (List.not_mem_nil o)
  | cons o2 rest ih =>
    intro tr0 hmem huniq h0
    by_cases he : o2 = o
    · subst he
      have hfind : (tr0.find? (fun t => t.name == o2.name)) = none := by
        rw [List.find?_eq_none]
        intro t ht
        simp [h0 t ht]
      have heq : mkTransforms (o2 :: rest) tr0 =
          mkTransforms rest (tr0 ++ [⟨o2.name, true, f⟩]) := by
        conv_lhs => rw [mkTransforms]
        rw [hf, hfind]
        rfl
      rw [heq]
      obtain ⟨trB2, hkeq, hnames⟩ := mkTransforms_keep o2.name rest tr0
        ⟨o2.name, true, f⟩ [] rfl (by simp)
      exact ⟨tr0, trB2, hkeq, h0, hnames⟩
    · have hmem2 : o ∈ rest := by
        rcases List.mem_cons.mp hmem with h2 | h2
        · exact absurd h2.symm he
        · exact h2
      have huniq2 : ∀ o3 ∈ rest, o3 ≠ o → o3.name ≠ o.name :=
        fun o3 h3 => huniq o3 (List.mem_cons_of_mem _ h3)
      have hne2 : o2.name ≠ o.name := huniq o2 (List.mem_cons_self _ _) he
      unfold mkTransforms
      split
      · split
        · exact ih tr0 hmem2 huniq2 h0
        · apply ih _ hmem2 huniq2
          intro t ht
          rcases List.mem_append.mp ht with h3 | h3
          · exact h0 t h3
          · simp at h3
            rw [h3]
            exact hne2
      · exact ih tr0 hmem2 huniq2 h0

/-- C8: for an option declared with an array-element coercion (and no
default), whose canonical name is dot-free, distinct from the reserved
passthrough key and not shared with any other declared option, when the parse
collects the option's raw occurrences into an array and no other parsed key
writes to that name, the final value under the canonical name is exactly the
element-wise image of the collected values under the coercion — applied once
per element, never twice, even though the key loop invokes the transform step
once per parsed key. -/
theorem c8_coercion (cac : CAC) (cmd : Option Command) (argv : List String)
    (o : CliOption) (f : Value → Value) (vs : List Value)
    (pre post : List (String × Value))
    (h1 : o ∈ cliOptionsOf cac cmd)
    (h2 : o.config.typeArray = some f)
    (h3 : o.config.default? = none)
    (h4 : o.name ≠ "--")
    (h5 : strSplitOnC '.' o.name = [o.name])
    (h6 : ∀ o2 ∈ cliOptionsOf cac cmd, o2 ≠ o →
      o2.name ≠ o.name ∧ o.name ∉ o2.names)
    (h7 : parsedOptsOf cac argv cmd = pre ++ (o.name, Value.arr vs) :: post)
    (h8 : ∀ kv ∈ pre ++ post, firstSeg kv.1 ≠ o.name) :
    lookupA (cac.mri argv cmd).options o.name = some (.arr (vs.map f)) := by
  unfold CAC.mri
  dsimp only
  rw [h7]
  have hm0 : lookupA (seedDefaults (ignoreDefaultEff cac cmd)
      (cliOptionsOf cac cmd)
      [("--", Value.arr ((tailDD argv).map Value.str))]) o.name = none := by
    rw [seedDefaults_lookup_skip _ _ _ ?_]
    · unfold lookupA
      rw [if_neg (fun he => h4 he.symm)]
      rfl
    · intro o2 ho2
      by_cases he : o2 = o
      · subst he
        right
        rw [h3]
        simp
      · exact Or.inl ((h6 o2 ho2 he).2)
  obtain ⟨trA, trB, htr, hA, hB⟩ := mkTransforms_split o f h2
    (cliOptionsOf cac cmd) [] h1 (fun o2 ho2 he => (h6 o2 ho2 he).1)
    (by simp)
  rw [htr, assignKeys_append]
  obtain ⟨m2, trA2, trB2, hpre, hm2, hA2, hB2⟩ :=
    assignKeys_keepK o.name f pre _ trA trB
      (fun kv h => h8 kv (List.mem_append_left _ h)) hA hB hm0
  rw [hpre]
  dsimp only
  have hcons : assignKeys ((o.name, Value.arr vs) :: post) m2
      (trA2 ++ ⟨o.name, true, f⟩ :: trB2) =
      assignKeys post
        (setByTypeGo (setDotProp m2 (strSplitOnC '.' o.name) (Value.arr vs))
          (trA2 ++ ⟨o.name, true, f⟩ :: trB2)).1
        (setByTypeGo (setDotProp m2 (strSplitOnC '.' o.name) (Value.arr vs))
          (trA2 ++ ⟨o.name, true, f⟩ :: trB2)).2 := rfl
  rw [hcons]
  have hset : lookupA (setDotProp m2 (strSplitOnC '.' o.name) (Value.arr vs))
      o.name = some (.arr vs) := by
    rw [h5]
    exact lookupA_setAssoc_self m2 o.name _
  obtain ⟨hfire1, trA3, trB3, hfire2, hA3, hB3⟩ :=
    setByTypeGo_fire o.name f trA2 trB2 _ vs hA2 hB2 hset
  rw [hfire2,
    assignKeys_deadK o.name f post _ trA3 trB3
      (fun kv h => h8 kv (List.mem_append_right _ h)) hA3 hB3]
  exact hfire1

/-- The registry of the C8 witness: a repeatable array-collected option with
an identity element coercion. -/
def cacC8 : CAC :=
  (mkCAC "").option "--type [type]" { typeArray := some (fun v => v) }

/-- The declared option of the C8 witness. -/
def cacC8opt : CliOption :=
  declareOption "--type [type]" { typeArray := some (fun v => v) }

/-- Witness for C8: two occurrences of the flag collect into an array and the
coercion maps over exactly the two collected elements. -/
theorem c8_coercion_witness :
    lookupA (cacC8.mri ["--type", "a", "--type", "b"] none).options "type" =
      some (.arr [.str "a", .str "b"]) := by
  have h := c8_coercion cacC8 none ["--type", "a", "--type", "b"] cacC8opt
    (fun v => v) [.str "a", .str "b"] [] []
    (List.mem_cons_self _ _) rfl rfl (by decide) rfl
    (fun o2 ho2 hne => absurd (List.mem_singleton.mp ho2) hne)
    rfl
    (fun kv hkv => absurd hkv (List.not_mem_nil kv))
  exact h.trans rfl

end Cac
